import Mathlib

/-!
Verification of the yml2block validation and diagnostics engine.

This file gives a shallow embedding, in Lean 4, of the algorithmic core of the
yml2block repository:

* `yml2block/prefix_analysis.py`: the greedy common-prefix clusterer
  (`split_by_common_prefixes`) and the singleton typo heuristic
  (`_singleton_heuristic`), together with the Damerau-Levenshtein distance
  that the source imports from the external `jellyfish` library
  (`damerau_levenshtein_distance`).
* `yml2block/tsv_input.py`: the section splitter `_identify_break_points`.
* `yml2block/rules.py`: the record model, severity levels, lint violations,
  the lint rules `unique_names`, `unique_titles`, `keywords_valid`,
  `nested_compound_metadata`, and the override configuration `LintConfig`.

Python strings are embedded as `List Char`; Python lists as `List`;
Python dicts as association lists with Python dict assignment semantics
(assignment to an existing key replaces the value in place, otherwise
appends).  Fallible operations (dict item access, attribute access,
`sys.exit`) are embedded in the `Except` monad over `PyErr`.
-/

namespace Yml2Block

/-- Keywords (Python strings) are embedded as lists of characters. -/
abbrev Kw := List Char

/-! ## Prefix clusterer: `split_by_common_prefixes` -/

/-- Embedding of `os.path.commonprefix((x, y))` for two strings: the longest
common leading run of equal characters. -/
def commonPrefixOf : Kw → Kw → Kw
  | a :: as, b :: bs => if a = b then a :: commonPrefixOf as bs else []
  | _, _ => []

/-- One step of the inner `for kw in keywords:` loop of
`split_by_common_prefixes`.  The state is the pair
`(current_group, current_prefix)`, where the second component is `none`
while `current_prefix is None` in the source. -/
def innerStep (selected : Kw) (minLen : Nat) : List Kw × Option Kw → Kw → List Kw × Option Kw
  | (group, Option.none), kw =>
    let c := commonPrefixOf selected kw
    if minLen ≤ c.length then (group ++ [kw], some c) else (group, Option.none)
  | (group, some cur), kw =>
    let c := commonPrefixOf selected kw
    if c = cur then (group ++ [kw], some cur)
    else if cur.isPrefixOf c then ((group ++ [kw]).filter (fun k => c.isPrefixOf k), some c)
    else (group, some cur)

/-- Python dict assignment `d[k] = v` on an association list: replace the
value in place when the key is present, append otherwise. -/
def dictAssign (acc : List (Kw × List Kw)) (k : Kw) (v : List Kw) : List (Kw × List Kw) :=
  if acc.any (fun p => p.1 = k) then acc.map (fun p => if p.1 = k then (k, v) else p)
  else acc ++ [(k, v)]

/-- The `while keywords:` loop of `split_by_common_prefixes`.  Each iteration
pops the first keyword as the reference entry, folds the inner loop over the
remaining keywords, removes the grouped keywords from the pool and binds the
group under its final prefix (or under the reference keyword when no prefix
of the minimum length was found).  The source loop terminates after at most
`n` iterations because the reference entry is removed from the pool each
time; the `fuel` argument makes that bound explicit. -/
def splitGo (minLen : Nat) : Nat → List Kw → List (Kw × List Kw) → List (Kw × List Kw)
  | _, [], acc => acc
  | 0, _ :: _, acc => acc
  | fuel + 1, selected :: rest, acc =>
    let st := rest.foldl (innerStep selected minLen) ([selected], Option.none)
    let group := st.1
    let remaining := rest.filter (fun kw => !(group.contains kw))
    let key := st.2.getD selected
    splitGo minLen fuel remaining (dictAssign acc key group)

/-- Embedding of `split_by_common_prefixes(keywords, min_prefix_length=3)`
from `yml2block/prefix_analysis.py`. -/
def split_by_common_prefixes (keywords : List Kw) (minLen : Nat := 3) : List (Kw × List Kw) :=
  splitGo minLen keywords.length keywords []

/-! ## Damerau-Levenshtein distance

The source calls `jellyfish.damerau_levenshtein_distance`, the unrestricted
Damerau-Levenshtein distance: the minimum number of single-character
insertions, deletions, substitutions and adjacent transpositions needed to
transform one string into the other (spec glossary).  We embed it by the
standard Lowrance-Wagner dynamic program.  The matrix `d` is stored as a
list of rows, where stored row `k` is the algorithm row `d[k-1]` and stored
column `l` of a row is the algorithm cell `d[.., l-1]`, so that the extra
`d[-1]` border row and `d[.., -1]` border column live at index 0. -/

/-- Inner column loop of the Lowrance-Wagner algorithm, computing stored row
`i` cell by cell.  `rows` holds all previously computed stored rows,
`da` maps a character to the last row index in which it occurred in `a`,
`prevRow` is the last stored row, `j` is the 1-based column, `db` the last
column in this row where the characters matched, `left` the previously
computed cell, and `acc` the stored row built so far. -/
def dlRowGo (rows : List (List Nat)) (da : List (Char × Nat)) (i : Nat) (cA : Char)
    (prevRow : List Nat) : List Char → Nat → Nat → Nat → List Nat → List Nat
  | [], _, _, _, acc => acc
  | cB :: bs, j, db, left, acc =>
    let k := (List.lookup cB da).getD 0
    let l := db
    let cost : Nat := if cA = cB then 0 else 1
    let db' := if cA = cB then j else db
    let sub := prevRow.getD j 0 + cost
    let ins := left + 1
    let del := prevRow.getD (j + 1) 0 + 1
    let tra := ((rows.getD k []).getD l 0) + (i - k - 1) + 1 + (j - l - 1)
    let cell := min (min sub ins) (min del tra)
    dlRowGo rows da i cA prevRow bs (j + 1) db' cell (acc ++ [cell])

/-- Embedding of the Damerau-Levenshtein distance `dl_dist` used by the typo
heuristic (imported from `jellyfish` in the source). -/
def dl_dist (a b : List Char) : Nat :=
  let n := b.length
  let m := a.length
  let maxdist := m + n
  let rowNeg : List Nat := List.replicate (n + 2) maxdist
  let rowZero : List Nat := maxdist :: List.range (n + 1)
  let final := a.foldl
    (fun (st : List (List Nat) × List (Char × Nat) × Nat) cA =>
      let rows := st.1
      let da := st.2.1
      let i := st.2.2 + 1
      let prevRow := rows.getLastD []
      let row := dlRowGo rows da i cA prevRow b 1 0 i [maxdist, i]
      (rows ++ [row], (cA, i) :: da, i))
    ([rowNeg, rowZero], [], 0)
  (final.1.getLastD []).getLastD 0

/-! ## Singleton typo heuristic: `_singleton_heuristic` -/

/-- Python dict lookup `keyword_prefixes[key]` (defaulting is never hit in
the source because only present keys are looked up). -/
def groupLookup (groups : List (Kw × List Kw)) (key : Kw) : List Kw :=
  ((groups.find? (fun p => p.1 = key)).map Prod.snd).getD []

/-- Embedding of `_singleton_heuristic(keyword_prefixes, dl_distance_threshold)`
from `yml2block/prefix_analysis.py`.  A reported candidate is the pair of the
singleton group and the candidate group, each as a one-entry mapping. -/
def singleton_heuristic (groups : List (Kw × List Kw)) (threshold : Nat) :
    List ((Kw × List Kw) × (Kw × List Kw)) :=
  let singletons := (groups.filter (fun p => p.2.length = 1)).map Prod.fst
  singletons.flatMap (fun s =>
    groups.filterMap (fun pe =>
      let p := pe.1
      if p = s then Option.none
      else if s.length < p.length then Option.none
      else if dl_dist (s.take p.length) p ≤ threshold then
        some ((s, groupLookup groups s), (p, groupLookup groups p))
      else Option.none))

/-- Decidable equality for `Except`, used to evaluate the embedded fallible
functions on concrete inputs. -/
instance {ε α : Type} [DecidableEq ε] [DecidableEq α] : DecidableEq (Except ε α) := fun x y =>
  match x, y with
  | .ok a, .ok b =>
    if h : a = b then .isTrue (by rw [h]) else .isFalse (by intro hh; injection hh; contradiction)
  | .error a, .error b =>
    if h : a = b then .isTrue (by rw [h]) else .isFalse (by intro hh; injection hh; contradiction)
  | .ok _, .error _ => .isFalse (by intro h; injection h)
  | .error _, .ok _ => .isFalse (by intro h; injection h)

/-! ## Severity levels and lint violations (`yml2block/rules.py`) -/

/-- Embedding of the `Level` IntEnum: `NONE = 3`, `WARNING = 2`, `ERROR = 1`. -/
inductive Level
  | NONE
  | WARNING
  | ERROR
deriving DecidableEq, Repr

/-- Numeric value of a severity level, as in the source IntEnum (a smaller
number is a more severe level). -/
def Level.val : Level → Nat
  | .NONE => 3
  | .WARNING => 2
  | .ERROR => 1

/-- Embedding of the `LintViolation` class: severity level, rule name,
message, optional line and column. -/
structure LintViolation where
  level : Level
  rule : String
  message : String
  line : Option Nat
  column : Option Nat
deriving DecidableEq, Repr

/-! ## Section splitter: `_identify_break_points` (`yml2block/tsv_input.py`) -/

/-- A raw line of the tabular file. -/
abbrev Line := List Char

/-- Embedding of `line.startswith("#")`. -/
def isMarker (l : Line) : Bool := (['#'] : List Char).isPrefixOf l

/-- Index collection underlying
`[i for i, line in enumerate(full_file) if line.startswith("#")]`,
with `i` the running index. -/
def bpGo (i : Nat) : List Line → List Nat
  | [] => []
  | l :: ls => if isMarker l then i :: bpGo (i + 1) ls else bpGo (i + 1) ls

/-- Embedding of the break-point list of `_identify_break_points`: the indices
of all lines starting with the section marker `#`, in increasing order. -/
def break_points (full_file : List Line) : List Nat := bpGo 0 full_file

/-- Python slice `full_file[a:b]` (for `a ≤ b` within range). -/
def pySlice (f : List Line) (a b : Nat) : List Line := (f.drop a).take (b - a)

/-- Result of `_identify_break_points`: either a triple of blocks whose third
component may be the distinguished missing value `None`, or the whole file
passed through unmodified. -/
inductive SplitBlocks
  | blocks (b1 b2 : List Line) (b3 : Option (List Line))
  | passthrough (f : List Line)
deriving DecidableEq, Repr

/-- The WARNING violation emitted by `_identify_break_points` when the file
cannot be split. -/
def breakPointWarning : LintViolation :=
  ⟨Level.WARNING, "identify_break_points",
    "Unable to split TSV file into blocks. Check tsv file formatting.",
    Option.none, Option.none⟩

/-- Embedding of `_identify_break_points(full_file)` from
`yml2block/tsv_input.py`. -/
def identify_break_points (full_file : List Line) : SplitBlocks × List LintViolation :=
  match break_points full_file with
  | [b0, b1, b2] =>
    (.blocks (pySlice full_file b0 b1) (pySlice full_file b1 b2) (some (full_file.drop b2)), [])
  | [b0, b1] =>
    (.blocks (pySlice full_file b0 b1) (full_file.drop b1) Option.none, [])
  | _ => (.passthrough full_file, [breakPointWarning])

/-! ## Records and field values (`yml2block/datatypes.py`) -/

/-- Scalar field values: string, boolean, number, or Python `None`. -/
inductive Value
  | str (s : String)
  | bool (b : Bool)
  | int (n : Int)
  | none
deriving DecidableEq, Repr

/-- Embedding of `MDBlockNode`: a scalar value with optional line/column. -/
structure MDBlockNode where
  value : Value
  line : Option Nat
  column : Option Nat
deriving DecidableEq, Repr

/-- Embedding of `MDBlockDict`: a record mapping field names to nodes, with
optional line/column of the record itself. -/
structure MDBlockDict where
  fields : List (String × MDBlockNode)
  line : Option Nat
  column : Option Nat
deriving DecidableEq, Repr

/-- Python exceptions and exits that the embedded code can raise. -/
inductive PyErr
  | keyError (k : String)
  | attributeError (a : String)
  | systemExit (c : Nat)
deriving DecidableEq, Repr

/-- Embedding of Python dict item access `item[key]`: raises `KeyError` when
the key is absent. -/
def getItem (item : MDBlockDict) (key : String) : Except PyErr MDBlockNode :=
  match List.lookup key item.fields with
  | some nd => Except.ok nd
  | Option.none => Except.error (PyErr.keyError key)

/-- Python `str()` of a scalar value. -/
def pyStr : Value → String
  | .str s => s
  | .bool true => "True"
  | .bool false => "False"
  | .int n => toString n
  | .none => "None"

/-- Python `repr()` of a scalar value (as used inside `str()` of a tuple). -/
def pyRepr : Value → String
  | .str s => "\x27" ++ s ++ "\x27"
  | v => pyStr v

/-- Python `str()` of an optional line/column number. -/
def pyShowOptNat : Option Nat → String
  | some n => toString n
  | Option.none => "None"

/-- Python `str()` of a `(title, parent)` tuple. -/
def pyTupleStr (tp : Value × Value) : String :=
  "(" ++ pyRepr tp.1 ++ ", " ++ pyRepr tp.2 ++ ")"

/-- The `f"line {o.line}"` fragment naming one occurrence. -/
def lineStr (item : MDBlockDict) : String := "line " ++ pyShowOptNat item.line

/-- Iteration order of the keys of a Python `Counter` (or dict) that was
filled by successive updates: each distinct key in order of first
occurrence. -/
def pyDistinct [DecidableEq α] (l : List α) : List α :=
  l.foldl (fun acc x => if x ∈ acc then acc else acc ++ [x]) []

/-! ## Lint rules (`yml2block/rules.py`) -/

/-- The message of a `unique_names` violation. -/
def uniqueNamesMessage (name : Value) (count : Nat) (occs : List String) : String :=
  "Name \x27" ++ pyStr name ++ "\x27 occurs " ++ toString count ++ " times: " ++
    String.intercalate ", " occs ++ ". Names have to be unique."

/-- Embedding of `unique_names(yaml_chunk, tsv_keyword, level=Level.ERROR)`:
count the `"name"` values of all records; one violation per name occurring
more than once, naming each occurrence; accessing a missing `"name"` key
raises `KeyError`. -/
def unique_names (yaml_chunk : List MDBlockDict) (tsv_keyword : String)
    (level : Level := Level.ERROR) : Except PyErr (List LintViolation) :=
  if tsv_keyword ∈ ["metadataBlock", "datasetField"] then do
    let entries ← yaml_chunk.foldlM
      (fun (acc : List (Value × MDBlockDict)) item => do
        let n ← getItem item "name"
        pure (acc ++ [(n.value, item)])) []
    let names := entries.map Prod.fst
    pure ((pyDistinct names).filterMap (fun nm =>
      if 1 < names.count nm then
        some ⟨level, "unique_names",
          uniqueNamesMessage nm (names.count nm)
            ((entries.filter (fun e => e.1 = nm)).map (fun e => lineStr e.2)),
          Option.none, Option.none⟩
      else Option.none))
  else pure []

/-- Keys of the Python dicts used by `unique_titles`: the `titles` counter is
keyed by `(title, parent)` tuples while `occurrences` is keyed by the scalar
title, so a lookup of a tuple key in `occurrences` always falls back to the
defaultdict default `[]`. -/
inductive PKey
  | scalar (v : Value)
  | pair (a b : Value)
deriving DecidableEq, Repr

/-- The message of a `unique_titles` violation (`title` here is the
`(title, parent)` tuple iterated from the counter). -/
def uniqueTitlesMessage (tp : Value × Value) (count : Nat) (occs : List String) : String :=
  "Title \x27" ++ pyTupleStr tp ++ "\x27 occurs " ++ toString count ++ " times: " ++
    String.intercalate ", " occs ++ ". Titles should be unique."

/-- Embedding of `unique_titles(yaml_chunk, tsv_keyword, level=Level.ERROR)`:
the uniqueness key is the `(title, parent)` tuple; accessing a missing
`"title"` or `"parent"` key raises `KeyError`. -/
def unique_titles (yaml_chunk : List MDBlockDict) (tsv_keyword : String)
    (level : Level := Level.ERROR) : Except PyErr (List LintViolation) :=
  if tsv_keyword ∈ ["datasetField"] then do
    let entries ← yaml_chunk.foldlM
      (fun (acc : List ((Value × Value) × MDBlockDict)) item => do
        let t ← getItem item "title"
        let p ← getItem item "parent"
        pure (acc ++ [((t.value, p.value), item)])) []
    let titles := entries.map Prod.fst
    let occurrences : List (PKey × MDBlockDict) :=
      entries.map (fun e => (PKey.scalar e.1.1, e.2))
    pure ((pyDistinct titles).filterMap (fun tp =>
      if 1 < titles.count tp then
        some ⟨level, "unique_titles",
          uniqueTitlesMessage tp (titles.count tp)
            ((occurrences.filter (fun o => o.1 = PKey.pair tp.1 tp.2)).map
              (fun o => lineStr o.2)),
          Option.none, Option.none⟩
      else Option.none))
  else pure []

/-- The three permissible top-level keywords. -/
def PERMISSIBLE_KEYWORDS : List String := ["metadataBlock", "datasetField", "controlledVocabulary"]

/-- The two required top-level keywords. -/
def REQUIRED_TOP_LEVEL_KEYWORDS : List String := ["metadataBlock", "datasetField"]

/-- Python `str()` of a list of strings as interpolated by an f-string:
the elements appear with their quotes inside square brackets. -/
def pyStrListRepr (l : List String) : String :=
  "[" ++ String.intercalate ", " (l.map (fun s => "\x27" ++ s ++ "\x27")) ++ "]"

/-- Python `max(matches, key=lambda x: x[0])`: the first pair with maximal
first component.  The source never applies it to an empty list (the
permissible-keyword catalog is a fixed nonempty list); the empty case is
given a default to keep the function total. -/
def pyMaxByFst (l : List (Rat × String)) : Rat × String :=
  match l with
  | [] => (0, "")
  | x :: xs => xs.foldl (fun best y => if best.1 < y.1 then y else best) x

/-- Embedding of `suggestions.fix_keywords_valid(keywords,
permissible_keywords, required_keywords)` from `yml2block/suggestions.py`:
for each keyword outside the permissible set, the closest permissible
keyword by similarity is suggested when its similarity exceeds 0.5,
otherwise all permissible keywords are listed; then one message per missing
required keyword is appended, and the messages are joined with `"; "`.
The similarity measure `sim` is the embedding's parameter for
`SequenceMatcher(None, kw, pkw).ratio()` of the external `difflib` library;
the float comparison with `0.5` is taken in exact rational arithmetic.
Python set difference iterates in an implementation-defined (hash-based)
order, modelled here as first-occurrence order of the underlying lists. -/
def fix_keywords_valid (sim : String → String → Rat)
    (keywords permissible_keywords required_keywords : List String) : String :=
  let additional_keywords :=
    (pyDistinct keywords).filter (fun kw => kw ∉ permissible_keywords)
  let message := additional_keywords.map (fun kw =>
    let matchList := permissible_keywords.map (fun pkw => (sim kw pkw, pkw))
    let best := pyMaxByFst matchList
    if (1 : Rat) / 2 < best.1 then
      "Invalid Keyword \x27" ++ kw ++ "\x27. Did you mean \x27" ++ best.2 ++ "\x27?"
    else
      "Invalid Keyword \x27" ++ kw ++ "\x27. Valid Keywords are: \x27" ++
        pyStrListRepr permissible_keywords ++ "\x27")
  let missing_keywords :=
    (pyDistinct required_keywords).filter (fun kw => kw ∉ keywords)
  let message := if missing_keywords.isEmpty then message
    else message ++ missing_keywords.map
      (fun kw => "Missing required keyword: \x27" ++ kw ++ "\x27")
  String.intercalate "; " message

/-- Embedding of `keywords_valid(keywords, level=Level.ERROR)`: the set of
keywords must equal the full permissible set or the required set; otherwise
a single violation is returned, carrying the `fix_keywords_valid` message.
`sim` is the similarity measure of the external `difflib` library used by
the suggestions module. -/
def keywords_valid (sim : String → String → Rat) (keywords : List String)
    (level : Level := Level.ERROR) : List LintViolation :=
  if keywords.toFinset = PERMISSIBLE_KEYWORDS.toFinset ∨
      keywords.toFinset = REQUIRED_TOP_LEVEL_KEYWORDS.toFinset then []
  else [⟨level, "keywords_valid",
    fix_keywords_valid sim keywords PERMISSIBLE_KEYWORDS REQUIRED_TOP_LEVEL_KEYWORDS,
    Option.none, Option.none⟩]

/-- Python `repr()` of an `MDBlockNode`, `f"({line}, {column}) {value}"`. -/
def nodeRepr (nd : MDBlockNode) : String :=
  "(" ++ pyShowOptNat nd.line ++ ", " ++ pyShowOptNat nd.column ++ ") " ++ pyStr nd.value

/-- Embedding of `nested_compound_metadata(list_item, tsv_keyword,
level=Level.WARNING)`: flags records with a non-None parent, allowmultiples
True and allowControlledVocabulary False.  Dict accesses follow Python
short-circuit order and raise `KeyError` on absent keys. -/
def nested_compound_metadata (list_item : MDBlockDict) (tsv_keyword : String)
    (level : Level := Level.WARNING) : Except PyErr (List LintViolation) :=
  if tsv_keyword ≠ "datasetField" then pure []
  else do
    let parent ← getItem list_item "parent"
    if parent.value ≠ Value.none then do
      let am ← getItem list_item "allowmultiples"
      if am.value = Value.bool true then do
        let acv ← getItem list_item "allowControlledVocabulary"
        if acv.value = Value.bool false then do
          let nameNode ← getItem list_item "name"
          pure [⟨level, "nested_compound_metadata",
            "The entry \x27" ++ nodeRepr nameNode ++ "\x27 allows multiple entries in a nested field.",
            am.line, am.column⟩]
        else pure []
      else pure []
    else pure []

/-! ## Override configuration: `LintConfig` (`yml2block/rules.py`) -/

/-- Identifiers of the lint rules in the catalog. -/
inductive RuleId
  | unique_names
  | block_is_list
  | unique_titles
  | keywords_valid
  | keywords_unique
  | keys_valid
  | required_keys_present
  | no_substructures
  | no_trailing_spaces
  | nested_compound_metadata
  | nested_compound_metadata_controlled_vocab
deriving DecidableEq, Repr

/-- Embedding of the `LINT_NAMES` dictionary: full rule names and short
aliases resolve to rules. -/
def LINT_NAMES : List (String × RuleId) :=
  [("unique_names", .unique_names), ("b001", .unique_names),
   ("block_is_list", .block_is_list), ("b002", .block_is_list),
   ("unique_titles", .unique_titles), ("b003", .unique_titles),
   ("keywords_valid", .keywords_valid), ("k001", .keywords_valid),
   ("keywords_unique", .keywords_unique), ("k002", .keywords_unique),
   ("keys_valid", .keys_valid), ("e001", .keys_valid),
   ("required_keys_present", .required_keys_present), ("e002", .required_keys_present),
   ("no_substructures", .no_substructures), ("e003", .no_substructures),
   ("no_trailing_spaces", .no_trailing_spaces), ("e004", .no_trailing_spaces),
   ("nested_compound_metadata", .nested_compound_metadata),
   ("e005", .nested_compound_metadata),
   ("nested_compound_metadata_controlled_vocab", .nested_compound_metadata_controlled_vocab),
   ("e006", .nested_compound_metadata_controlled_vocab)]

/-- An override stored in a `LintConfig`: fix the severity at a given level
(`functools.partial(lint, level=...)`) or skip the lint entirely
(`lambda *x: []`). -/
inductive Override
  | fixLevel (lvl : Level)
  | skip
deriving DecidableEq, Repr

/-- Embedding of the `LintConfig` class: a mapping from rules to overrides. -/
structure LintConfig where
  overrides : List (RuleId × Override)
deriving DecidableEq, Repr

/-- Embedding of `LintConfig.add_override` (Python dict assignment). -/
def LintConfig.add_override (conf : LintConfig) (r : RuleId) (ov : Override) : LintConfig :=
  if conf.overrides.any (fun p => p.1 = r) then
    ⟨conf.overrides.map (fun p => if p.1 = r then (r, ov) else p)⟩
  else ⟨conf.overrides ++ [(r, ov)]⟩

/-- Embedding of `LintConfig.get`: the override for a rule, or `none` when
the rule is unconfigured (the source then returns the original lint). -/
def LintConfig.get (conf : LintConfig) (r : RuleId) : Option Override :=
  List.lookup r conf.overrides

/-- Embedding of `LintConfig.from_cli_args(error, warn, skip)`.  The source
first builds the pair list
`[(e, conf.error) for e in error] + [(w, conf.warn) for w in warn] + [(s, conf.skip) for s in skip]`;
evaluating `conf.warn` raises `AttributeError` because the method defined on
the class is named `warning`, so a nonempty warn list fails before any lint
lookup.  Each resolved pair is applied in order; a name missing from
`LINT_NAMES` triggers `sys.exit(1)`. -/
def from_cli_args (error warn skip : List String) : Except PyErr LintConfig :=
  match warn with
  | _ :: _ => Except.error (PyErr.attributeError "warn")
  | [] =>
    (error.map (fun e => (e, Override.fixLevel Level.ERROR)) ++
     skip.map (fun s => (s, Override.skip))).foldlM
      (fun (conf : LintConfig) p =>
        match List.lookup p.1 LINT_NAMES with
        | some r => Except.ok (conf.add_override r p.2)
        | Option.none => Except.error (PyErr.systemExit 1)) ⟨[]⟩

/-! ## Helper lemmas about the break-point scan -/

/-- Every collected break point is at least the running index, within range,
and points at a marker line. -/
theorem bpGo_mem (f : List Line) : ∀ (i : Nat), ∀ j ∈ bpGo i f,
    i ≤ j ∧ j - i < f.length ∧ isMarker (f.getD (j - i) []) = true := by
  induction f with
  | nil => intro i j hj; simp [bpGo] at hj
  | cons l ls ih =>
    intro i j hj
    rw [bpGo] at hj
    by_cases hm : isMarker l
    · simp only [hm, if_true, List.mem_cons] at hj
      rcases hj with rfl | hj
      · simp [hm]
      · rcases ih (i + 1) j hj with ⟨h1, h2, h3⟩
        have hij : i < j := by omega
        refine ⟨by omega, by simp; omega, ?_⟩
        have : j - i = (j - (i + 1)) + 1 := by omega
        rw [this]
        simpa using h3
    · simp only [hm, if_false] at hj
      rcases ih (i + 1) j hj with ⟨h1, h2, h3⟩
      have hij : i < j := by omega
      refine ⟨by omega, by simp; omega, ?_⟩
      have : j - i = (j - (i + 1)) + 1 := by omega
      rw [this]
      simpa using h3

/-- Collected break points are strictly increasing. -/
theorem bpGo_pairwise (f : List Line) : ∀ (i : Nat), (bpGo i f).Pairwise (· < ·) := by
  induction f with
  | nil => intro i; simp [bpGo]
  | cons l ls ih =>
    intro i
    rw [bpGo]
    by_cases hm : isMarker l
    · simp only [hm, if_true]
      refine List.pairwise_cons.mpr ⟨?_, ih (i + 1)⟩
      intro j hj
      have := (bpGo_mem ls (i + 1) j hj).1
      omega
    · simp only [hm, if_false]; exact ih (i + 1)

/-- Splitting a drop at a later index: a Python slice `f[a:b]` followed by
the tail `f[b:]` reassembles `f[a:]`. -/
theorem pySlice_append_drop (f : List Line) (a b : Nat) (hab : a ≤ b) :
    pySlice f a b ++ f.drop b = f.drop a := by
  have hd : f.drop b = (f.drop a).drop (b - a) := by
    rw [List.drop_drop]
    congr 1
    omega
  rw [pySlice, hd, List.take_append_drop]

/-! ## C1: prefix clusterer examples -/

/-- C1: with minimum prefix length 3, `split_by_common_prefixes` groups
`["fooBarBaz","fooBarTest","fooBar"]` into the single group keyed
`"fooBar"` containing all three keywords in input order; it splits
`["1FooBar","2FooBar","3FooBar"]` into three singleton groups each keyed by
the keyword itself; and it splits `["Foo1","Foo2","Foo3"]` into three
singletons at minimum prefix length 4 but into the single group keyed
`"Foo"` at minimum prefix length 3. -/
theorem split_by_common_prefixes_examples :
    split_by_common_prefixes ["fooBarBaz".toList, "fooBarTest".toList, "fooBar".toList] 3 =
      [("fooBar".toList, ["fooBarBaz".toList, "fooBarTest".toList, "fooBar".toList])] ∧
    split_by_common_prefixes ["1FooBar".toList, "2FooBar".toList, "3FooBar".toList] 3 =
      [("1FooBar".toList, ["1FooBar".toList]),
       ("2FooBar".toList, ["2FooBar".toList]),
       ("3FooBar".toList, ["3FooBar".toList])] ∧
    split_by_common_prefixes ["Foo1".toList, "Foo2".toList, "Foo3".toList] 4 =
      [("Foo1".toList, ["Foo1".toList]),
       ("Foo2".toList, ["Foo2".toList]),
       ("Foo3".toList, ["Foo3".toList])] ∧
    split_by_common_prefixes ["Foo1".toList, "Foo2".toList, "Foo3".toList] 3 =
      [("Foo".toList, ["Foo1".toList, "Foo2".toList, "Foo3".toList])] :=
  ⟨by decide, by decide, by decide, by decide⟩

/-! ## C3: section splitter with exactly three markers -/

/-- C3 (counterexample): on a file whose first line is not a marker, the
three slices returned by `_identify_break_points` start at the first marker,
so their concatenation does not reconstruct the entire input. -/
theorem identify_break_points_drops_leading_lines :
    break_points ["x".toList, "#a".toList, "#b".toList, "#c".toList] = [1, 2, 3] ∧
    identify_break_points ["x".toList, "#a".toList, "#b".toList, "#c".toList] =
      (.blocks ["#a".toList] ["#b".toList] (some ["#c".toList]), []) ∧
    ["#a".toList] ++ ["#b".toList] ++ ["#c".toList] ≠
      ["x".toList, "#a".toList, "#b".toList, "#c".toList] :=
  ⟨by decide, by decide, by decide⟩

/-- C3 (amended): for every line sequence with exactly 3 marker lines at
indices `b0 < b1 < b2`, the splitter returns the three marker-inclusive
slices `[b0,b1)`, `[b1,b2)`, `[b2,end)` with zero violations; the slices are
contiguous and non-overlapping, and their concatenation reconstructs the
input from the first marker line onward (the entire input exactly when the
first line is a marker). -/
theorem identify_break_points_three_markers (f : List Line) (b0 b1 b2 : Nat)
    (h : break_points f = [b0, b1, b2]) :
    identify_break_points f =
      (.blocks (pySlice f b0 b1) (pySlice f b1 b2) (some (f.drop b2)), []) ∧
    b0 < b1 ∧ b1 < b2 ∧ b2 < f.length ∧
    isMarker (f.getD b0 []) = true ∧ isMarker (f.getD b1 []) = true ∧
    isMarker (f.getD b2 []) = true ∧
    pySlice f b0 b1 ++ pySlice f b1 b2 ++ f.drop b2 = f.drop b0 := by
  have hpw := bpGo_pairwise f 0
  rw [break_points] at h
  rw [h] at hpw
  have h01 : b0 < b1 := by
    have := List.pairwise_cons.mp hpw
    exact this.1 b1 (by simp)
  have h12 : b1 < b2 := by
    have := List.pairwise_cons.mp (List.pairwise_cons.mp hpw).2
    exact this.1 b2 (by simp)
  have hm0 := bpGo_mem f 0 b0 (by rw [h]; simp)
  have hm1 := bpGo_mem f 0 b1 (by rw [h]; simp)
  have hm2 := bpGo_mem f 0 b2 (by rw [h]; simp)
  simp only [Nat.sub_zero] at hm0 hm1 hm2
  refine ⟨?_, h01, h12, hm2.2.1, hm0.2.2, hm1.2.2, hm2.2.2, ?_⟩
  · rw [identify_break_points, break_points, h]
  · rw [List.append_assoc, pySlice_append_drop f b1 b2 (by omega),
      pySlice_append_drop f b0 b1 (by omega)]

/-- C3 witness: the amended theorem applied to a concrete four-line file
whose first line is a marker. -/
theorem identify_break_points_three_markers_witness :
    break_points ["#a".toList, "b".toList, "#c".toList, "#d".toList] = [0, 2, 3] ∧
    (identify_break_points ["#a".toList, "b".toList, "#c".toList, "#d".toList] =
      (.blocks (pySlice ["#a".toList, "b".toList, "#c".toList, "#d".toList] 0 2)
        (pySlice ["#a".toList, "b".toList, "#c".toList, "#d".toList] 2 3)
        (some (["#a".toList, "b".toList, "#c".toList, "#d".toList].drop 3)), []) ∧
     0 < 2 ∧ 2 < 3 ∧ 3 < (["#a".toList, "b".toList, "#c".toList, "#d".toList] : List Line).length ∧
     isMarker ((["#a".toList, "b".toList, "#c".toList, "#d".toList] : List Line).getD 0 []) = true ∧
     isMarker ((["#a".toList, "b".toList, "#c".toList, "#d".toList] : List Line).getD 2 []) = true ∧
     isMarker ((["#a".toList, "b".toList, "#c".toList, "#d".toList] : List Line).getD 3 []) = true ∧
     pySlice ["#a".toList, "b".toList, "#c".toList, "#d".toList] 0 2 ++
        pySlice ["#a".toList, "b".toList, "#c".toList, "#d".toList] 2 3 ++
        ["#a".toList, "b".toList, "#c".toList, "#d".toList].drop 3 =
      ["#a".toList, "b".toList, "#c".toList, "#d".toList].drop 0) :=
  ⟨by decide, identify_break_points_three_markers _ 0 2 3 (by decide)⟩

/-! ## C4: section splitter fallback and two-marker cases -/

/-- C4: when the number of marker lines is 0, 1, or at least 4, the splitter
returns the whole file unmodified as a pass-through value together with
exactly one WARNING-level violation carrying rule `identify_break_points`;
with exactly 2 marker lines it returns the two slices plus the distinguished
missing third value `None` (not an empty list) and zero violations. -/
theorem identify_break_points_fallback (f : List Line) :
    ((break_points f).length = 0 ∨ (break_points f).length = 1 ∨
        4 ≤ (break_points f).length →
      identify_break_points f = (.passthrough f, [breakPointWarning])) ∧
    (∀ b0 b1, break_points f = [b0, b1] →
      identify_break_points f =
        (.blocks (pySlice f b0 b1) (f.drop b1) Option.none, [])) ∧
    breakPointWarning.level = Level.WARNING ∧
    breakPointWarning.rule = "identify_break_points" := by
  refine ⟨?_, ?_, rfl, rfl⟩
  · intro h
    rw [identify_break_points]
    match hbp : break_points f with
    | [] => rfl
    | [a] => rfl
    | [a, b] => rw [hbp] at h; simp at h
    | [a, b, c] => rw [hbp] at h; simp at h
    | a :: b :: c :: d :: rest => rfl
  · intro b0 b1 h
    rw [identify_break_points, h]

/-- C4 witness: the fallback case on a one-marker file and the two-marker
case on a concrete file. -/
theorem identify_break_points_fallback_witness :
    ((break_points ["#a".toList, "b".toList]).length = 0 ∨
      (break_points ["#a".toList, "b".toList]).length = 1 ∨
      4 ≤ (break_points ["#a".toList, "b".toList]).length) ∧
    identify_break_points ["#a".toList, "b".toList] =
      (.passthrough ["#a".toList, "b".toList], [breakPointWarning]) ∧
    break_points ["#a".toList, "#b".toList, "c".toList] = [0, 1] ∧
    identify_break_points ["#a".toList, "#b".toList, "c".toList] =
      (.blocks (pySlice ["#a".toList, "#b".toList, "c".toList] 0 1)
        (["#a".toList, "#b".toList, "c".toList].drop 1) Option.none, []) :=
  ⟨Or.inr (Or.inl (by decide)),
   (identify_break_points_fallback _).1 (Or.inr (Or.inl (by decide))),
   by decide,
   (identify_break_points_fallback _).2.1 0 1 (by decide)⟩

/-! ## C7: top-level keyword set validation -/

/-- C7: for every similarity measure standing for the external difflib
ratio, `keywords_valid` returns no violations exactly when the set of
keywords equals the full permissible set
`{metadataBlock, datasetField, controlledVocabulary}` or the required set
`{metadataBlock, datasetField}`; for every other keyword set it returns
exactly one violation (the returned list never has more than one entry, and
it is nonempty exactly in the invalid case). -/
theorem keywords_valid_characterization (sim : String → String → Rat)
    (keywords : List String) (level : Level) :
    (keywords_valid sim keywords level = [] ↔
      keywords.toFinset = PERMISSIBLE_KEYWORDS.toFinset ∨
      keywords.toFinset = REQUIRED_TOP_LEVEL_KEYWORDS.toFinset) ∧
    (keywords_valid sim keywords level).length ≤ 1 := by
  by_cases h : keywords.toFinset = PERMISSIBLE_KEYWORDS.toFinset ∨
      keywords.toFinset = REQUIRED_TOP_LEVEL_KEYWORDS.toFinset
  · rw [keywords_valid, if_pos h]
    simp [h]
  · rw [keywords_valid, if_neg h]
    simp [h]

/-! ## C8: override configuration construction -/

/-- C8: the claim fails on the code.  `LintConfig.from_cli_args` references
`conf.warn`, but the method defined on the class is named `warning`, so
building the configuration with any nonempty warn list raises
`AttributeError` instead of producing a WARNING-severity override.  The skip
list works as described (a resolvable identifier yields a skip override,
looked up by `LintConfig.get`, while unconfigured rules yield none), and an
unresolvable identifier is a fatal error (`sys.exit(1)`). -/
theorem from_cli_args_warn_attribute_error :
    from_cli_args [] ["unique_names"] [] = Except.error (PyErr.attributeError "warn") ∧
    from_cli_args [] [] ["unique_names"] =
      Except.ok ⟨[(RuleId.unique_names, Override.skip)]⟩ ∧
    LintConfig.get ⟨[(RuleId.unique_names, Override.skip)]⟩ RuleId.unique_names =
      some Override.skip ∧
    LintConfig.get ⟨[(RuleId.unique_names, Override.skip)]⟩ RuleId.unique_titles =
      Option.none ∧
    from_cli_args [] [] ["nope"] = Except.error (PyErr.systemExit 1) :=
  ⟨rfl, rfl, rfl, rfl, rfl⟩

/-! ## C9: rules can raise exceptions -/

/-- A datasetField record carrying every required key (and no optional
`parent` key), used to show that rules crash even on well-formed records. -/
def dsRecordNoParent : MDBlockDict :=
  ⟨[("name", ⟨Value.str "childField", some 3, Option.none⟩),
    ("title", ⟨Value.str "Child Field", some 3, Option.none⟩),
    ("description", ⟨Value.str "d", some 3, Option.none⟩),
    ("fieldType", ⟨Value.str "text", some 3, Option.none⟩),
    ("displayOrder", ⟨Value.int 1, some 3, Option.none⟩),
    ("advancedSearchField", ⟨Value.bool false, some 3, Option.none⟩),
    ("allowControlledVocabulary", ⟨Value.bool false, some 3, Option.none⟩),
    ("allowmultiples", ⟨Value.bool true, some 3, Option.none⟩),
    ("facetable", ⟨Value.bool false, some 3, Option.none⟩),
    ("displayoncreate", ⟨Value.bool true, some 3, Option.none⟩),
    ("required", ⟨Value.bool false, some 3, Option.none⟩),
    ("metadatablock_id", ⟨Value.str "demo", some 3, Option.none⟩)],
   some 3, Option.none⟩

/-- C9: the claim fails on the code.  Rule functions are not total on
document-model shapes: `unique_titles` raises `KeyError` on a datasetField
record that lacks the optional `parent` field (even one carrying every
required key), `nested_compound_metadata` does the same, and `unique_names`
raises `KeyError` on a record lacking `name` — instead of returning a list
of violations. -/
theorem rules_raise_key_error :
    unique_titles [dsRecordNoParent] "datasetField" =
      Except.error (PyErr.keyError "parent") ∧
    nested_compound_metadata dsRecordNoParent "datasetField" =
      Except.error (PyErr.keyError "parent") ∧
    unique_names [⟨[], some 1, Option.none⟩] "metadataBlock" =
      Except.error (PyErr.keyError "name") :=
  ⟨rfl, rfl, rfl⟩

/-! ## C2: the singleton typo heuristic -/

/-- Dict lookup on an association list with distinct keys returns the stored
value. -/
theorem groupLookup_of_mem (groups : List (Kw × List Kw))
    (hnd : (groups.map Prod.fst).Nodup) {s : Kw} {gs : List Kw}
    (h : (s, gs) ∈ groups) : groupLookup groups s = gs := by
  induction groups with
  | nil => simp at h
  | cons hd tl ih =>
    rcases List.mem_cons.mp h with rfl | htl
    · simp [groupLookup]
    · have hkey : hd.1 ≠ s := by
        intro hk
        have : s ∈ tl.map Prod.fst := List.mem_map.mpr ⟨(s, gs), htl, rfl⟩
        rw [List.map_cons, List.nodup_cons, hk] at hnd
        exact hnd.1 this
      have htlnd : (tl.map Prod.fst).Nodup := by
        rw [List.map_cons, List.nodup_cons] at hnd
        exact hnd.2
      rw [groupLookup, List.find?_cons_of_neg _ (by simpa using hkey)]
      exact ih htlnd htl

/-- C2: for every prefix-group mapping (with distinct group keys, as in a
Python dict) and every threshold, `_singleton_heuristic` reports the pair
`(s-group, p-group)` if and only if the `s` group is a singleton, `p` is a
different group key with `length p ≤ length s`, and the Damerau-Levenshtein
distance between `s` truncated to `length p` and `p` is at most the
threshold.  In particular, for the groups `{FoobarAttr: 3 items,
FoobraAttrNrVier: 1 item}` with threshold 1 exactly one candidate pairing
the singleton with the `FoobarAttr` group is reported, and the 2-edit
variant `FXobraAttrNrVier` yields zero candidates at threshold 1 but one at
threshold 2. -/
theorem singleton_heuristic_characterization :
    (∀ (groups : List (Kw × List Kw)) (t : Nat) (s p : Kw) (gs gp : List Kw),
      (groups.map Prod.fst).Nodup →
      (((s, gs), (p, gp)) ∈ singleton_heuristic groups t ↔
        (s, gs) ∈ groups ∧ (p, gp) ∈ groups ∧ gs.length = 1 ∧ p ≠ s ∧
          p.length ≤ s.length ∧ dl_dist (s.take p.length) p ≤ t)) ∧
    singleton_heuristic
      [("FoobarAttr".toList,
        ["FoobarAttr1".toList, "FoobarAttrZwo".toList, "FoobarAttrDrei".toList]),
       ("FoobraAttrNrVier".toList, ["FoobraAttrNrVier".toList])] 1 =
      [(("FoobraAttrNrVier".toList, ["FoobraAttrNrVier".toList]),
        ("FoobarAttr".toList,
         ["FoobarAttr1".toList, "FoobarAttrZwo".toList, "FoobarAttrDrei".toList]))] ∧
    singleton_heuristic
      [("FoobarAttr".toList,
        ["FoobarAttr1".toList, "FoobarAttrZwo".toList, "FoobarAttrDrei".toList]),
       ("FXobraAttrNrVier".toList, ["FXobraAttrNrVier".toList])] 1 = [] ∧
    singleton_heuristic
      [("FoobarAttr".toList,
        ["FoobarAttr1".toList, "FoobarAttrZwo".toList, "FoobarAttrDrei".toList]),
       ("FXobraAttrNrVier".toList, ["FXobraAttrNrVier".toList])] 2 =
      [(("FXobraAttrNrVier".toList, ["FXobraAttrNrVier".toList]),
        ("FoobarAttr".toList,
         ["FoobarAttr1".toList, "FoobarAttrZwo".toList, "FoobarAttrDrei".toList]))] := by
  refine ⟨?_, by decide, by decide, by decide⟩
  intro groups t s p gs gp hnd
  rw [singleton_heuristic]
  simp only [List.mem_flatMap, List.mem_map, List.mem_filter, List.mem_filterMap]
  constructor
  · rintro ⟨s', ⟨⟨⟨a1, b1⟩, ⟨hpe1mem, hpe1len⟩, hpe1fst⟩, ⟨a2, b2⟩, hpe2mem, hpe2⟩⟩
    simp only at hpe1fst hpe1len hpe2
    by_cases h1 : a2 = s'
    · rw [if_pos h1] at hpe2; cases hpe2
    rw [if_neg h1] at hpe2
    by_cases h2 : s'.length < a2.length
    · rw [if_pos h2] at hpe2; cases hpe2
    rw [if_neg h2] at hpe2
    by_cases h3 : dl_dist (s'.take a2.length) a2 ≤ t
    case neg => rw [if_neg h3] at hpe2; cases hpe2
    rw [if_pos h3] at hpe2
    injection hpe2 with hpair
    injection hpair with hfst hsnd
    injection hfst with hs hgs
    injection hsnd with hp hgp
    have hb1 : groupLookup groups a1 = b1 := groupLookup_of_mem groups hnd hpe1mem
    have hb2 : groupLookup groups a2 = b2 := groupLookup_of_mem groups hnd hpe2mem
    have hgsb : gs = b1 := by rw [← hgs, ← hpe1fst, hb1]
    have hgpb : gp = b2 := by rw [← hgp, hb2]
    refine ⟨?_, ?_, ?_, ?_, ?_, ?_⟩
    · rw [← hs, ← hpe1fst, hgsb]; exact hpe1mem
    · rw [← hp, hgpb]; exact hpe2mem
    · rw [hgsb]; exact of_decide_eq_true hpe1len
    · rw [← hp, ← hs]; exact h1
    · rw [← hp, ← hs]; omega
    · rw [← hp, ← hs]; exact h3
  · rintro ⟨hsmem, hpmem, hgslen, hne, hlen, hdl⟩
    refine ⟨s, ⟨⟨(s, gs), ⟨hsmem, by simpa using hgslen⟩, rfl⟩, (p, gp), hpmem, ?_⟩⟩
    rw [if_neg hne, if_neg (Nat.not_lt.mpr hlen), if_pos hdl,
      groupLookup_of_mem groups hnd hsmem, groupLookup_of_mem groups hnd hpmem]

/-- C2 witness: the characterization applied to the concrete group mapping
from the example, threshold 1. -/
theorem singleton_heuristic_characterization_witness :
    (("FoobraAttrNrVier".toList, ["FoobraAttrNrVier".toList]),
      ("FoobarAttr".toList,
       ["FoobarAttr1".toList, "FoobarAttrZwo".toList, "FoobarAttrDrei".toList])) ∈
      singleton_heuristic
        [("FoobarAttr".toList,
          ["FoobarAttr1".toList, "FoobarAttrZwo".toList, "FoobarAttrDrei".toList]),
         ("FoobraAttrNrVier".toList, ["FoobraAttrNrVier".toList])] 1 :=
  (singleton_heuristic_characterization.1 _ 1 _ _ _ _ (by decide)).mpr
    ⟨by decide, by decide, by decide, by decide, by decide, by decide⟩

/-! ## C5: uniqueness of record names -/

/-- The `"name"` value of a record (total version, defaulting for absent
keys; used only under the hypothesis that the key is present). -/
def nameValD (r : MDBlockDict) : Value :=
  ((List.lookup "name" r.fields).getD ⟨Value.none, Option.none, Option.none⟩).value

/-- The list of `"name"` values of a record list, in record order. -/
def namesOf (chunk : List MDBlockDict) : List Value := chunk.map nameValD

/-- The single violation that `unique_names` emits for a duplicated name:
its message names the line of every record carrying that name. -/
def nameViolation (level : Level) (chunk : List MDBlockDict) (nm : Value) : LintViolation :=
  ⟨level, "unique_names",
    uniqueNamesMessage nm ((namesOf chunk).count nm)
      ((chunk.filter (fun r => nameValD r = nm)).map lineStr),
    Option.none, Option.none⟩

/-- Bind of a successful `Except` computation. -/
theorem except_bind_ok {ε α β : Type} (a : α) (f : α → Except ε β) :
    (Except.ok (ε := ε) a >>= f) = f a := rfl

/-- Bind of a pure `Except` computation. -/
theorem except_pure_bind {ε α β : Type} (a : α) (f : α → Except ε β) :
    ((pure a : Except ε α) >>= f) = f a := rfl

/-- Pure in the `Except` monad is `Except.ok`. -/
theorem except_pure_eq {ε α : Type} (a : α) : (pure a : Except ε α) = Except.ok a := rfl

/-- The accumulator-passing form of `pyDistinct`: the result is duplicate
free and has the same elements as the accumulator plus the input, provided
the accumulator is duplicate free. -/
theorem pyDistinct_go [DecidableEq α] (l : List α) :
    ∀ acc : List α, acc.Nodup →
      (l.foldl (fun acc x => if x ∈ acc then acc else acc ++ [x]) acc).Nodup ∧
        (∀ a, a ∈ l.foldl (fun acc x => if x ∈ acc then acc else acc ++ [x]) acc ↔
          a ∈ acc ∨ a ∈ l) := by
  induction l with
  | nil => intro acc hacc; exact ⟨hacc, fun a => by simp⟩
  | cons x xs ih =>
    intro acc hacc
    rw [List.foldl_cons]
    by_cases hx : x ∈ acc
    · rw [if_pos hx]
      rcases ih acc hacc with ⟨h1, h2⟩
      refine ⟨h1, fun a => ?_⟩
      rw [h2]
      constructor
      · rintro (h | h)
        · exact Or.inl h
        · exact Or.inr (by simp [h])
      · rintro (h | h)
        · exact Or.inl h
        · rcases List.mem_cons.mp h with rfl | h
          · exact Or.inl hx
          · exact Or.inr h
    · rw [if_neg hx]
      have hnd : (acc ++ [x]).Nodup := by
        rw [List.nodup_append]
        exact ⟨hacc, List.nodup_singleton x, by simpa using hx⟩
      rcases ih (acc ++ [x]) hnd with ⟨h1, h2⟩
      refine ⟨h1, fun a => ?_⟩
      rw [h2]
      simp only [List.mem_append, List.mem_singleton, List.mem_cons]
      tauto

/-- `pyDistinct` returns a duplicate-free list. -/
theorem pyDistinct_nodup [DecidableEq α] (l : List α) : (pyDistinct l).Nodup :=
  (pyDistinct_go l [] (List.nodup_nil)).1

/-- `pyDistinct` preserves membership. -/
theorem pyDistinct_mem [DecidableEq α] (l : List α) (a : α) :
    a ∈ pyDistinct l ↔ a ∈ l := by
  rw [pyDistinct]
  rw [(pyDistinct_go l [] (List.nodup_nil)).2 a]
  simp

/-- In a duplicate-free list every element occurs at most once (stated for
an arbitrary lawful `BEq` instance). -/
theorem count_le_one_of_nodup {α : Type} [BEq α] [LawfulBEq α] {l : List α}
    (h : l.Nodup) (x : α) : l.count x ≤ 1 := by
  induction l with
  | nil => simp
  | cons a t ih =>
    rw [List.nodup_cons] at h
    rw [List.count_cons]
    by_cases hx : x = a
    · subst hx
      have hz : t.count x = 0 := List.count_eq_zero.mpr h.1
      rw [hz]
      simp
    · have hb : (a == x) = false := beq_eq_false_iff_ne.mpr (Ne.symm hx)
      rw [hb]
      simpa using ih h.2

/-- A `filterMap` of an if-then-some pattern is a `filter` followed by a
`map`. -/
theorem filterMap_if {α β : Type} (l : List α) (p : α → Prop) [DecidablePred p] (g : α → β) :
    (l.filterMap fun a => if p a then some (g a) else Option.none) =
      (l.filter (fun a => p a)).map g := by
  induction l with
  | nil => rfl
  | cons a l ih =>
    by_cases h : p a <;> simp [List.filterMap_cons, List.filter_cons, h, ih]

/-- The name-collecting fold of `unique_names` succeeds when every record
carries a `"name"` key, producing the name/record pairs in record order. -/
theorem unique_names_fold (chunk : List MDBlockDict)
    (hpres : ∀ r ∈ chunk, (List.lookup "name" r.fields).isSome = true) :
    ∀ init : List (Value × MDBlockDict),
      chunk.foldlM
        (fun (acc : List (Value × MDBlockDict)) item => do
          let n ← getItem item "name"
          pure (acc ++ [(n.value, item)])) init =
      Except.ok (ε := PyErr) (init ++ chunk.map (fun r => (nameValD r, r))) := by
  induction chunk with
  | nil => intro init; rw [List.foldlM_nil, List.map_nil, List.append_nil]; rfl
  | cons r rs ih =>
    intro init
    have hr := hpres r (by simp)
    obtain ⟨nd, hnd⟩ := Option.isSome_iff_exists.mp hr
    have hgi : getItem r "name" = Except.ok nd := by rw [getItem, hnd]
    have hnv : nameValD r = nd.value := by rw [nameValD, hnd]; rfl
    rw [List.foldlM_cons, hgi, except_bind_ok, except_pure_bind]
    rw [ih (fun r hmem => hpres r (by simp [hmem])) (init ++ [(nd.value, r)])]
    simp [hnv]

/-- C5: for record lists under `metadataBlock` or `datasetField` whose
records all carry a `"name"` field, `unique_names` returns exactly one
violation for each distinct duplicated name value (in first-occurrence
order, over the duplicate-free list of distinct names), and that violation
message names the line of every record carrying the name; when all names
are pairwise distinct it returns no violations; under any other section
keyword it returns no violations. -/
theorem unique_names_characterization (chunk : List MDBlockDict) (kw : String) (level : Level) :
    (kw ∉ ["metadataBlock", "datasetField"] → unique_names chunk kw level = Except.ok []) ∧
    ((pyDistinct (namesOf chunk)).Nodup ∧
      ∀ nm, nm ∈ pyDistinct (namesOf chunk) ↔ nm ∈ namesOf chunk) ∧
    (kw ∈ ["metadataBlock", "datasetField"] →
      (∀ r ∈ chunk, (List.lookup "name" r.fields).isSome = true) →
      unique_names chunk kw level =
        Except.ok (((pyDistinct (namesOf chunk)).filter
            (fun nm => 1 < (namesOf chunk).count nm)).map (nameViolation level chunk)) ∧
      ((namesOf chunk).Nodup → unique_names chunk kw level = Except.ok [])) := by
  refine ⟨?_, ⟨pyDistinct_nodup _, pyDistinct_mem _⟩, ?_⟩
  · intro hkw
    rw [unique_names, if_neg hkw]
    rfl
  · intro hkw hpres
    have hmain : unique_names chunk kw level =
        Except.ok (((pyDistinct (namesOf chunk)).filter
            (fun nm => 1 < (namesOf chunk).count nm)).map (nameViolation level chunk)) := by
      rw [unique_names, if_pos hkw, unique_names_fold chunk hpres [], except_bind_ok,
        except_pure_eq]
      simp only [List.nil_append]
      have hfst : (chunk.map (fun r => (nameValD r, r))).map Prod.fst = namesOf chunk := by
        rw [List.map_map]; rfl
      rw [hfst]
      congr 1
      have hocc : ∀ nm : Value,
          (((chunk.map (fun r => (nameValD r, r))).filter (fun e => e.1 = nm)).map
            (fun e => lineStr e.2)) =
          (chunk.filter (fun r => nameValD r = nm)).map lineStr := by
        intro nm
        rw [List.filter_map, List.map_map]
        rfl
      calc ((pyDistinct (namesOf chunk)).filterMap fun nm =>
              if 1 < (namesOf chunk).count nm then
                some ⟨level, "unique_names",
                  uniqueNamesMessage nm ((namesOf chunk).count nm)
                    (((chunk.map (fun r => (nameValD r, r))).filter (fun e => e.1 = nm)).map
                      (fun e => lineStr e.2)),
                  Option.none, Option.none⟩
              else Option.none)
          = ((pyDistinct (namesOf chunk)).filterMap fun nm =>
              if 1 < (namesOf chunk).count nm then some (nameViolation level chunk nm)
              else Option.none) := by
            have hfun : (fun nm =>
                if 1 < (namesOf chunk).count nm then
                  some (⟨level, "unique_names",
                    uniqueNamesMessage nm ((namesOf chunk).count nm)
                      (((chunk.map (fun r => (nameValD r, r))).filter (fun e => e.1 = nm)).map
                        (fun e => lineStr e.2)),
                    Option.none, Option.none⟩ : LintViolation)
                else Option.none) =
                (fun nm =>
                  if 1 < (namesOf chunk).count nm then some (nameViolation level chunk nm)
                  else Option.none) := by
              funext nm
              rw [hocc nm]
              rfl
            rw [hfun]
          _ = ((pyDistinct (namesOf chunk)).filter
              (fun nm => 1 < (namesOf chunk).count nm)).map (nameViolation level chunk) :=
            filterMap_if _ _ _
    refine ⟨hmain, fun hnodup => ?_⟩
    rw [hmain]
    have hfilter : ((pyDistinct (namesOf chunk)).filter
        (fun nm => 1 < (namesOf chunk).count nm)) = [] := by
      rw [List.filter_eq_nil_iff]
      intro nm _
      have := List.nodup_iff_count_le_one.mp hnodup nm
      simp only [decide_eq_true_eq]
      omega
    rw [hfilter]
    rfl

/-- C5 witness: a metadataBlock chunk in which the name `A` occurs twice
(lines 1 and 3) and `B` once; the characterization yields exactly the one
violation for `A`, whose message names both occurrences. -/
theorem unique_names_characterization_witness :
    ("metadataBlock" : String) ∈ ["metadataBlock", "datasetField"] ∧
    unique_names
      [⟨[("name", ⟨Value.str "A", some 1, Option.none⟩)], some 1, Option.none⟩,
       ⟨[("name", ⟨Value.str "B", some 2, Option.none⟩)], some 2, Option.none⟩,
       ⟨[("name", ⟨Value.str "A", some 3, Option.none⟩)], some 3, Option.none⟩]
      "metadataBlock" Level.ERROR =
      Except.ok [⟨Level.ERROR, "unique_names",
        "Name \x27A\x27 occurs 2 times: line 1, line 3. Names have to be unique.",
        Option.none, Option.none⟩] := by
  have h := ((unique_names_characterization
    [⟨[("name", ⟨Value.str "A", some 1, Option.none⟩)], some 1, Option.none⟩,
     ⟨[("name", ⟨Value.str "B", some 2, Option.none⟩)], some 2, Option.none⟩,
     ⟨[("name", ⟨Value.str "A", some 3, Option.none⟩)], some 3, Option.none⟩]
    "metadataBlock" Level.ERROR).2.2 (by decide) (by decide)).1
  exact ⟨by decide, by rw [h]; rfl⟩

/-! ## C6: uniqueness of record titles, keyed by (title, parent) -/

/-- The `"title"` value of a record (total version; used only under the
hypothesis that the key is present). -/
def titleValD (r : MDBlockDict) : Value :=
  ((List.lookup "title" r.fields).getD ⟨Value.none, Option.none, Option.none⟩).value

/-- The `"parent"` value of a record (total version; used only under the
hypothesis that the key is present). -/
def parentValD (r : MDBlockDict) : Value :=
  ((List.lookup "parent" r.fields).getD ⟨Value.none, Option.none, Option.none⟩).value

/-- The `(title, parent)` pairs of a record list, in record order: the
uniqueness key of `unique_titles`. -/
def titlePairsOf (chunk : List MDBlockDict) : List (Value × Value) :=
  chunk.map (fun r => (titleValD r, parentValD r))

/-- The single violation that `unique_titles` emits for a duplicated
`(title, parent)` pair.  The occurrence list in the message is empty because
the source reads the scalar-keyed `occurrences` dict with a tuple key. -/
def titleViolation (level : Level) (chunk : List MDBlockDict) (tp : Value × Value) :
    LintViolation :=
  ⟨level, "unique_titles",
    uniqueTitlesMessage tp ((titlePairsOf chunk).count tp) [],
    Option.none, Option.none⟩

/-- The title/parent-collecting fold of `unique_titles` succeeds when every
record carries both keys, producing the pair/record list in record order. -/
theorem unique_titles_fold (chunk : List MDBlockDict)
    (hpres : ∀ r ∈ chunk, (List.lookup "title" r.fields).isSome = true ∧
      (List.lookup "parent" r.fields).isSome = true) :
    ∀ init : List ((Value × Value) × MDBlockDict),
      chunk.foldlM
        (fun (acc : List ((Value × Value) × MDBlockDict)) item => do
          let t ← getItem item "title"
          let p ← getItem item "parent"
          pure (acc ++ [((t.value, p.value), item)])) init =
      Except.ok (ε := PyErr) (init ++ chunk.map (fun r => ((titleValD r, parentValD r), r))) := by
  induction chunk with
  | nil => intro init; rw [List.foldlM_nil, List.map_nil, List.append_nil]; rfl
  | cons r rs ih =>
    intro init
    obtain ⟨ht, hp⟩ := hpres r (by simp)
    obtain ⟨tn, htn⟩ := Option.isSome_iff_exists.mp ht
    obtain ⟨pn, hpn⟩ := Option.isSome_iff_exists.mp hp
    have hgt : getItem r "title" = Except.ok tn := by rw [getItem, htn]
    have hgp : getItem r "parent" = Except.ok pn := by rw [getItem, hpn]
    have htv : titleValD r = tn.value := by rw [titleValD, htn]; rfl
    have hpv : parentValD r = pn.value := by rw [parentValD, hpn]; rfl
    rw [List.foldlM_cons, hgt, except_bind_ok, hgp, except_bind_ok, except_pure_bind]
    rw [ih (fun r hmem => hpres r (by simp [hmem])) (init ++ [((tn.value, pn.value), r)])]
    simp [htv, hpv]

/-- On a datasetField chunk whose records all carry `"title"` and
`"parent"`, `unique_titles` returns one violation per distinct duplicated
`(title, parent)` pair, in first-occurrence order. -/
theorem unique_titles_ok (chunk : List MDBlockDict) (level : Level)
    (hpres : ∀ r ∈ chunk, (List.lookup "title" r.fields).isSome = true ∧
      (List.lookup "parent" r.fields).isSome = true) :
    unique_titles chunk "datasetField" level =
      Except.ok (((pyDistinct (titlePairsOf chunk)).filter
        (fun tp => 1 < (titlePairsOf chunk).count tp)).map (titleViolation level chunk)) := by
  rw [unique_titles, if_pos (by simp), unique_titles_fold chunk hpres [], except_bind_ok,
    except_pure_eq]
  simp only [List.nil_append]
  have hfst : (chunk.map (fun r => ((titleValD r, parentValD r), r))).map Prod.fst =
      titlePairsOf chunk := by
    rw [List.map_map]; rfl
  rw [hfst]
  congr 1
  have hocc : ∀ tp : Value × Value,
      ((((chunk.map (fun r => ((titleValD r, parentValD r), r))).map
          (fun e => (PKey.scalar e.1.1, e.2))).filter
        (fun o => o.1 = PKey.pair tp.1 tp.2)).map (fun o => lineStr o.2)) = [] := by
    intro tp
    have : (((chunk.map (fun r => ((titleValD r, parentValD r), r))).map
        (fun e => (PKey.scalar e.1.1, e.2))).filter
          (fun o => o.1 = PKey.pair tp.1 tp.2)) = [] := by
      rw [List.filter_eq_nil_iff]
      intro o ho
      rcases List.mem_map.mp ho with ⟨e, _, rfl⟩
      simp
    rw [this, List.map_nil]
  have hfun : (fun tp =>
      if 1 < (titlePairsOf chunk).count tp then
        some (⟨level, "unique_titles",
          uniqueTitlesMessage tp ((titlePairsOf chunk).count tp)
            ((((chunk.map (fun r => ((titleValD r, parentValD r), r))).map
                (fun e => (PKey.scalar e.1.1, e.2))).filter
              (fun o => o.1 = PKey.pair tp.1 tp.2)).map (fun o => lineStr o.2)),
          Option.none, Option.none⟩ : LintViolation)
      else Option.none) =
      (fun tp =>
        if 1 < (titlePairsOf chunk).count tp then some (titleViolation level chunk tp)
        else Option.none) := by
    funext tp
    rw [hocc tp]
    rfl
  rw [hfun, filterMap_if]

/-- C6: `unique_titles` uses the `(title, parent)` pair as the uniqueness
key: on a datasetField record list whose records all carry `"title"` and
`"parent"`, it returns one violation per distinct duplicated pair; two
records with the same title but different parents produce zero violations,
while two records with the same title and the same parent produce exactly
one; under any section keyword other than `datasetField` it returns no
violations. -/
theorem unique_titles_characterization (chunk : List MDBlockDict) (kw : String) (level : Level) :
    (kw ∉ ["datasetField"] → unique_titles chunk kw level = Except.ok []) ∧
    (kw ∈ ["datasetField"] →
      (∀ r ∈ chunk, (List.lookup "title" r.fields).isSome = true ∧
        (List.lookup "parent" r.fields).isSome = true) →
      unique_titles chunk kw level =
        Except.ok (((pyDistinct (titlePairsOf chunk)).filter
          (fun tp => 1 < (titlePairsOf chunk).count tp)).map (titleViolation level chunk)) ∧
      ((titlePairsOf chunk).Nodup → unique_titles chunk kw level = Except.ok [])) ∧
    (∀ r1 r2 : MDBlockDict,
      (List.lookup "title" r1.fields).isSome = true →
      (List.lookup "parent" r1.fields).isSome = true →
      (List.lookup "title" r2.fields).isSome = true →
      (List.lookup "parent" r2.fields).isSome = true →
      titleValD r1 = titleValD r2 →
      (parentValD r1 ≠ parentValD r2 →
        unique_titles [r1, r2] "datasetField" level = Except.ok []) ∧
      (parentValD r1 = parentValD r2 →
        unique_titles [r1, r2] "datasetField" level =
          Except.ok [titleViolation level [r1, r2] (titleValD r1, parentValD r1)])) := by
  refine ⟨?_, ?_, ?_⟩
  · intro hkw
    rw [unique_titles, if_neg hkw]
    rfl
  · intro hkw hpres
    rcases List.mem_singleton.mp hkw with rfl
    refine ⟨unique_titles_ok chunk level hpres, fun hnodup => ?_⟩
    rw [unique_titles_ok chunk level hpres]
    have hfilter : ((pyDistinct (titlePairsOf chunk)).filter
        (fun tp => 1 < (titlePairsOf chunk).count tp)) = [] := by
      rw [List.filter_eq_nil_iff]
      intro tp _
      simp only [decide_eq_true_eq]
      exact Nat.not_lt.mpr (count_le_one_of_nodup hnodup tp)
    rw [hfilter]
    rfl
  · intro r1 r2 ht1 hp1 ht2 hp2 httl
    have hpres : ∀ r ∈ [r1, r2], (List.lookup "title" r.fields).isSome = true ∧
        (List.lookup "parent" r.fields).isSome = true := by
      intro r hr
      rcases List.mem_cons.mp hr with rfl | hr
      · exact ⟨ht1, hp1⟩
      · rcases List.mem_singleton.mp hr with rfl
        exact ⟨ht2, hp2⟩
    have hpairs : titlePairsOf [r1, r2] =
        [(titleValD r1, parentValD r1), (titleValD r2, parentValD r2)] := rfl
    constructor
    · intro hpar
      rw [unique_titles_ok [r1, r2] level hpres]
      have hnodup : (titlePairsOf [r1, r2]).Nodup := by
        rw [hpairs]
        refine List.nodup_cons.mpr ⟨?_, List.nodup_singleton _⟩
        intro hmem
        rcases List.mem_singleton.mp hmem with heq
        injection heq with h1 h2
        exact hpar h2
      have hfilter : ((pyDistinct (titlePairsOf [r1, r2])).filter
          (fun tp => 1 < (titlePairsOf [r1, r2]).count tp)) = [] := by
        rw [List.filter_eq_nil_iff]
        intro tp _
        simp only [decide_eq_true_eq]
        exact Nat.not_lt.mpr (count_le_one_of_nodup hnodup tp)
      rw [hfilter]
      rfl
    · intro hpar
      rw [unique_titles_ok [r1, r2] level hpres]
      congr 1
      have hpairs2 : titlePairsOf [r1, r2] =
          [(titleValD r1, parentValD r1), (titleValD r1, parentValD r1)] := by
        rw [hpairs, ← httl, ← hpar]
      rw [hpairs2]
      have hdistinct : pyDistinct [(titleValD r1, parentValD r1), (titleValD r1, parentValD r1)] =
          [(titleValD r1, parentValD r1)] := by
        simp [pyDistinct]
      rw [hdistinct]
      have hcount : ([(titleValD r1, parentValD r1), (titleValD r1, parentValD r1)].count
          (titleValD r1, parentValD r1)) = 2 := by
        simp
      rw [List.filter_cons, if_pos (by rw [hcount]; decide), List.filter_nil, List.map_cons,
        List.map_nil]

/-- C6 witness: two concrete records with the same title; with different
parents zero violations are returned, and with equal parents exactly one. -/
theorem unique_titles_characterization_witness :
    unique_titles
      [⟨[("title", ⟨Value.str "T", some 1, Option.none⟩),
         ("parent", ⟨Value.str "P1", some 1, Option.none⟩)], some 1, Option.none⟩,
       ⟨[("title", ⟨Value.str "T", some 2, Option.none⟩),
         ("parent", ⟨Value.str "P2", some 2, Option.none⟩)], some 2, Option.none⟩]
      "datasetField" Level.ERROR = Except.ok [] ∧
    unique_titles
      [⟨[("title", ⟨Value.str "T", some 1, Option.none⟩),
         ("parent", ⟨Value.str "P1", some 1, Option.none⟩)], some 1, Option.none⟩,
       ⟨[("title", ⟨Value.str "T", some 2, Option.none⟩),
         ("parent", ⟨Value.str "P1", some 2, Option.none⟩)], some 2, Option.none⟩]
      "datasetField" Level.ERROR =
      Except.ok [titleViolation Level.ERROR
        [⟨[("title", ⟨Value.str "T", some 1, Option.none⟩),
           ("parent", ⟨Value.str "P1", some 1, Option.none⟩)], some 1, Option.none⟩,
         ⟨[("title", ⟨Value.str "T", some 2, Option.none⟩),
           ("parent", ⟨Value.str "P1", some 2, Option.none⟩)], some 2, Option.none⟩]
        (Value.str "T", Value.str "P1")] :=
  ⟨((unique_titles_characterization [] "datasetField" Level.ERROR).2.2
      _ _ (by decide) (by decide) (by decide) (by decide) (by decide)).1 (by decide),
   ((unique_titles_characterization [] "datasetField" Level.ERROR).2.2
      _ _ (by decide) (by decide) (by decide) (by decide) (by decide)).2 (by decide)⟩

/-! ## C10: the prefix clusterer partitions its input

The development follows the structure of the source loop: lemmas about the
longest-common-prefix meet, an invariant for the inner `for` loop
(`innerStep` folded over the remaining keywords), and an invariant for the
outer `while` loop (`splitGo`). -/

/-- The common prefix of two lists is a prefix of the first. -/
theorem commonPrefixOf_prefix_left : ∀ x y : Kw, commonPrefixOf x y <+: x := by
  intro x
  induction x with
  | nil => intro y; cases y <;> simp [commonPrefixOf]
  | cons a as ih =>
    intro y
    cases y with
    | nil => simp [commonPrefixOf]
    | cons b bs =>
      rw [commonPrefixOf]
      by_cases hab : a = b
      · rw [if_pos hab]
        exact List.cons_prefix_cons.mpr ⟨rfl, ih bs⟩
      · rw [if_neg hab]
        exact List.nil_prefix

/-- The common prefix of two lists is a prefix of the second. -/
theorem commonPrefixOf_prefix_right : ∀ x y : Kw, commonPrefixOf x y <+: y := by
  intro x
  induction x with
  | nil => intro y; cases y <;> simp [commonPrefixOf]
  | cons a as ih =>
    intro y
    cases y with
    | nil => simp [commonPrefixOf]
    | cons b bs =>
      rw [commonPrefixOf]
      by_cases hab : a = b
      · rw [if_pos hab, hab]
        exact List.cons_prefix_cons.mpr ⟨rfl, ih bs⟩
      · rw [if_neg hab]
        exact List.nil_prefix

/-- The common prefix is the meet: any common prefix of both lists is a
prefix of it. -/
theorem prefix_commonPrefixOf : ∀ (p x y : Kw), p <+: x → p <+: y → p <+: commonPrefixOf x y := by
  intro p
  induction p with
  | nil => intro x y _ _; exact List.nil_prefix
  | cons a as ih =>
    intro x y hx hy
    cases x with
    | nil => exact absurd (List.eq_nil_of_prefix_nil hx) (by simp)
    | cons b bs =>
      cases y with
      | nil => exact absurd (List.eq_nil_of_prefix_nil hy) (by simp)
      | cons c cs =>
        obtain ⟨hab, hx'⟩ := List.cons_prefix_cons.mp hx
        obtain ⟨hac, hy'⟩ := List.cons_prefix_cons.mp hy
        rw [commonPrefixOf, if_pos (by rw [← hab, ← hac])]
        rw [← hab]
        exact List.cons_prefix_cons.mpr ⟨rfl, ih bs cs hx' hy'⟩

/-- When the first list is a prefix of the second, the common prefix is the
entire first list. -/
theorem commonPrefixOf_eq_left : ∀ x y : Kw, x <+: y → commonPrefixOf x y = x := by
  intro x
  induction x with
  | nil => intro y _; cases y <;> simp [commonPrefixOf]
  | cons a as ih =>
    intro y hxy
    cases y with
    | nil => exact absurd (List.eq_nil_of_prefix_nil hxy) (by simp)
    | cons b bs =>
      obtain ⟨hab, h'⟩ := List.cons_prefix_cons.mp hxy
      rw [commonPrefixOf, if_pos hab, ih bs h']

/-- A list containing two distinct elements has at least two elements. -/
theorem two_le_length_of_mem_ne {α : Type} {l : List α} {a b : α}
    (ha : a ∈ l) (hb : b ∈ l) (hab : a ≠ b) : 2 ≤ l.length := by
  cases l with
  | nil => simp at ha
  | cons x t =>
    rcases List.mem_cons.mp ha with rfl | hat
    · have hbt : b ∈ t := by
        rcases List.mem_cons.mp hb with rfl | h
        · exact absurd rfl hab
        · exact h
      have := List.length_pos_of_mem hbt
      simp
      omega
    · have := List.length_pos_of_mem hat
      simp
      omega

/-- Invariant of the inner loop state `(current_group, current_prefix)` of
`split_by_common_prefixes` for reference keyword `selected` and minimum
length `m`: while no prefix is bound the group is the reference alone; once
a prefix `c` is bound it has at least the minimum length, is a prefix of the
reference and of every group member, the reference is in the group, and the
group has at least two members. -/
def InnerInv (selected : Kw) (m : Nat) (st : List Kw × Option Kw) : Prop :=
  match st.2 with
  | Option.none => st.1 = [selected]
  | some c => m ≤ c.length ∧ c <+: selected ∧ (∀ k ∈ st.1, c <+: k) ∧
      selected ∈ st.1 ∧ 2 ≤ st.1.length

/-- One inner-loop step preserves the invariant (for a candidate keyword
distinct from the reference). -/
theorem innerStep_inv {s : Kw} {m : Nat} {st : List Kw × Option Kw} {kw : Kw}
    (hkw : kw ≠ s) (h : InnerInv s m st) : InnerInv s m (innerStep s m st kw) := by
  obtain ⟨group, c?⟩ := st
  cases c? with
  | none =>
    have hg : group = [s] := h
    rw [innerStep]
    by_cases hc : m ≤ (commonPrefixOf s kw).length
    · rw [if_pos hc]
      subst hg
      refine ⟨hc, commonPrefixOf_prefix_left s kw, ?_, by simp, by simp⟩
      intro k hk
      rcases List.mem_append.mp hk with hk | hk
      · rw [List.mem_singleton.mp hk]
        exact commonPrefixOf_prefix_left s kw
      · rw [List.mem_singleton.mp hk]
        exact commonPrefixOf_prefix_right s kw
    · rw [if_neg hc]
      exact h
  | some cur =>
    obtain ⟨hm, hcs, hmem, hsin, hlen⟩ := h
    have hlen' : 2 ≤ group.length := hlen
    have hsin' : s ∈ group := hsin
    have hmem' : ∀ k ∈ group, cur <+: k := hmem
    rw [innerStep]
    by_cases heq : commonPrefixOf s kw = cur
    · rw [if_pos heq]
      refine ⟨hm, hcs, ?_, List.mem_append.mpr (Or.inl hsin'), ?_⟩
      · intro k hk
        rcases List.mem_append.mp hk with hk | hk
        · exact hmem' k hk
        · rw [List.mem_singleton.mp hk, ← heq]
          exact commonPrefixOf_prefix_right s kw
      · rw [List.length_append]
        omega
    · rw [if_neg heq]
      by_cases hext : cur.isPrefixOf (commonPrefixOf s kw)
      · rw [if_pos hext]
        have hcc : cur <+: commonPrefixOf s kw := List.isPrefixOf_iff_prefix.mp hext
        have hsmem : s ∈ (group ++ [kw]).filter
            (fun k => (commonPrefixOf s kw).isPrefixOf k) := by
          rw [List.mem_filter]
          exact ⟨List.mem_append.mpr (Or.inl hsin),
            List.isPrefixOf_iff_prefix.mpr (commonPrefixOf_prefix_left s kw)⟩
        have hkwmem : kw ∈ (group ++ [kw]).filter
            (fun k => (commonPrefixOf s kw).isPrefixOf k) := by
          rw [List.mem_filter]
          exact ⟨List.mem_append.mpr (Or.inr (by simp)),
            List.isPrefixOf_iff_prefix.mpr (commonPrefixOf_prefix_right s kw)⟩
        refine ⟨Nat.le_trans hm hcc.length_le, commonPrefixOf_prefix_left s kw, ?_,
          hsmem, two_le_length_of_mem_ne hsmem hkwmem (fun hsk => hkw hsk.symm)⟩
        intro k hk
        rw [List.mem_filter] at hk
        exact List.isPrefixOf_iff_prefix.mp hk.2
      · rw [if_neg hext]
        exact ⟨hm, hcs, hmem, hsin, hlen⟩

/-- The inner fold preserves the invariant. -/
theorem foldl_innerStep_inv {s : Kw} {m : Nat} :
    ∀ (l : List Kw), s ∉ l → ∀ st, InnerInv s m st →
      InnerInv s m (l.foldl (innerStep s m) st) := by
  intro l
  induction l with
  | nil => intro _ st h; exact h
  | cons kw l' ih =>
    intro hs st h
    rw [List.foldl_cons]
    exact ih (fun h' => hs (by simp [h'])) _
      (innerStep_inv (fun hk => hs (by simp [hk])) h)

/-- The components of the invariant once a prefix is bound. -/
theorem innerInv_some {s : Kw} {m : Nat} {st : List Kw × Option Kw} {c : Kw}
    (h : InnerInv s m st) (hc : st.2 = some c) :
    m ≤ c.length ∧ c <+: s ∧ (∀ k ∈ st.1, c <+: k) ∧ s ∈ st.1 ∧ 2 ≤ st.1.length := by
  obtain ⟨group, c?⟩ := st
  cases c? with
  | none => simp at hc
  | some cur =>
    have : cur = c := by injection hc
    subst this
    exact h

/-- One step only extends a bound prefix. -/
theorem innerStep_prefix_mono {s : Kw} {m : Nat} (st : List Kw × Option Kw) (kw : Kw) {c : Kw}
    (h : st.2 = some c) :
    ∃ c', (innerStep s m st kw).2 = some c' ∧ c <+: c' := by
  obtain ⟨group, c?⟩ := st
  cases c? with
  | none => simp at h
  | some cur =>
    have hcc : cur = c := by injection h
    subst hcc
    rw [innerStep]
    by_cases heq : commonPrefixOf s kw = cur
    · rw [if_pos heq]; exact ⟨cur, rfl, List.prefix_rfl⟩
    · rw [if_neg heq]
      by_cases hext : cur.isPrefixOf (commonPrefixOf s kw)
      · rw [if_pos hext]; exact ⟨_, rfl, List.isPrefixOf_iff_prefix.mp hext⟩
      · rw [if_neg hext]; exact ⟨cur, rfl, List.prefix_rfl⟩

/-- The inner fold only extends a bound prefix. -/
theorem foldl_prefix_mono {s : Kw} {m : Nat} :
    ∀ (l : List Kw) (st : List Kw × Option Kw) (c : Kw), st.2 = some c →
      ∃ c', (l.foldl (innerStep s m) st).2 = some c' ∧ c <+: c' := by
  intro l
  induction l with
  | nil => intro st c h; exact ⟨c, h, List.prefix_rfl⟩
  | cons kw l' ih =>
    intro st c h
    rw [List.foldl_cons]
    obtain ⟨c₁, h₁, hc₁⟩ := innerStep_prefix_mono st kw h
    obtain ⟨c', h', hc'⟩ := ih _ c₁ h₁
    exact ⟨c', h', hc₁.trans hc'⟩

/-- A step that leaves the prefix unbound is a no-op on a state with unbound
prefix, and the candidate shares less than the minimum prefix length. -/
theorem innerStep_none {s : Kw} {m : Nat} (st : List Kw × Option Kw) (kw : Kw)
    (h : (innerStep s m st kw).2 = Option.none) :
    innerStep s m st kw = st ∧ st.2 = Option.none ∧ (commonPrefixOf s kw).length < m := by
  obtain ⟨group, c?⟩ := st
  cases c? with
  | some cur =>
    exfalso
    rw [innerStep] at h
    by_cases heq : commonPrefixOf s kw = cur
    · rw [if_pos heq] at h; simp at h
    · rw [if_neg heq] at h
      by_cases hext : cur.isPrefixOf (commonPrefixOf s kw)
      · rw [if_pos hext] at h; simp at h
      · rw [if_neg hext] at h; simp at h
  | none =>
    rw [innerStep] at h ⊢
    by_cases hc : m ≤ (commonPrefixOf s kw).length
    · rw [if_pos hc] at h; simp at h
    · rw [if_neg hc] at h ⊢
      exact ⟨rfl, rfl, by omega⟩

/-- A fold that ends with an unbound prefix was a no-op, and every candidate
shares less than the minimum prefix length with the reference. -/
theorem foldl_none {s : Kw} {m : Nat} :
    ∀ (l : List Kw) (st : List Kw × Option Kw),
      (l.foldl (innerStep s m) st).2 = Option.none →
      l.foldl (innerStep s m) st = st ∧ st.2 = Option.none ∧
        ∀ u ∈ l, (commonPrefixOf s u).length < m := by
  intro l
  induction l with
  | nil => intro st h; exact ⟨rfl, h, by simp⟩
  | cons kw l' ih =>
    intro st h
    rw [List.foldl_cons] at h ⊢
    obtain ⟨hfix, hnone, hall⟩ := ih _ h
    obtain ⟨hstep, hnone', hlt⟩ := innerStep_none st kw hnone
    refine ⟨hfix.trans hstep, hnone', ?_⟩
    intro u hu
    rcases List.mem_cons.mp hu with hukw | hu
    · rw [hukw]; exact hlt
    · exact hall u hu

/-- Group members after one step come from the previous group or are the
candidate. -/
theorem innerStep_members {s : Kw} {m : Nat} (st : List Kw × Option Kw) (kw : Kw) :
    ∀ k ∈ (innerStep s m st kw).1, k ∈ st.1 ∨ k = kw := by
  obtain ⟨group, c?⟩ := st
  intro k hk
  cases c? with
  | none =>
    rw [innerStep] at hk
    by_cases hc : m ≤ (commonPrefixOf s kw).length
    · rw [if_pos hc] at hk
      rcases List.mem_append.mp hk with h | h
      · exact Or.inl h
      · exact Or.inr (List.mem_singleton.mp h)
    · rw [if_neg hc] at hk
      exact Or.inl hk
  | some cur =>
    rw [innerStep] at hk
    by_cases heq : commonPrefixOf s kw = cur
    · rw [if_pos heq] at hk
      rcases List.mem_append.mp hk with h | h
      · exact Or.inl h
      · exact Or.inr (List.mem_singleton.mp h)
    · rw [if_neg heq] at hk
      by_cases hext : cur.isPrefixOf (commonPrefixOf s kw)
      · rw [if_pos hext] at hk
        rw [List.mem_filter] at hk
        rcases List.mem_append.mp hk.1 with h | h
        · exact Or.inl h
        · exact Or.inr (List.mem_singleton.mp h)
      · rw [if_neg hext] at hk
        exact Or.inl hk

/-- Group members of the inner fold come from the initial group or from the
candidate list. -/
theorem foldl_members {s : Kw} {m : Nat} :
    ∀ (l : List Kw) (st : List Kw × Option Kw),
      ∀ k ∈ (l.foldl (innerStep s m) st).1, k ∈ st.1 ∨ k ∈ l := by
  intro l
  induction l with
  | nil => intro st k hk; exact Or.inl hk
  | cons kw l' ih =>
    intro st k hk
    rw [List.foldl_cons] at hk
    rcases ih _ k hk with h | h
    · rcases innerStep_members st kw k h with h' | h'
      · exact Or.inl h'
      · exact Or.inr (by simp [h'])
    · exact Or.inr (by simp [h])

/-- A member carrying every possible next prefix survives one step. -/
theorem innerStep_keep {s : Kw} {m : Nat} (st : List Kw × Option Kw) (kw : Kw) (k : Kw)
    (hk : k ∈ st.1) (Q : Kw)
    (hQ : ∀ c', (innerStep s m st kw).2 = some c' → c' <+: Q) (hQk : Q <+: k) :
    k ∈ (innerStep s m st kw).1 := by
  obtain ⟨group, c?⟩ := st
  cases c? with
  | none =>
    rw [innerStep]
    by_cases hc : m ≤ (commonPrefixOf s kw).length
    · rw [if_pos hc]; exact List.mem_append.mpr (Or.inl hk)
    · rw [if_neg hc]; exact hk
  | some cur =>
    rw [innerStep]
    by_cases heq : commonPrefixOf s kw = cur
    · rw [if_pos heq]; exact List.mem_append.mpr (Or.inl hk)
    · rw [if_neg heq]
      by_cases hext : cur.isPrefixOf (commonPrefixOf s kw)
      · rw [if_pos hext]
        have hcQ : commonPrefixOf s kw <+: Q := by
          apply hQ
          rw [innerStep, if_neg heq, if_pos hext]
        rw [List.mem_filter]
        exact ⟨List.mem_append.mpr (Or.inl hk),
          List.isPrefixOf_iff_prefix.mpr (hcQ.trans hQk)⟩
      · rw [if_neg hext]
        exact hk

/-- A member carrying the final prefix survives the inner fold. -/
theorem foldl_stable {s : Kw} {m : Nat} :
    ∀ (l : List Kw) (st : List Kw × Option Kw) (P : Kw),
      (l.foldl (innerStep s m) st).2 = some P →
      ∀ k ∈ st.1, P <+: k → k ∈ (l.foldl (innerStep s m) st).1 := by
  intro l
  induction l with
  | nil => intro st P _ k hk _; exact hk
  | cons kw l' ih =>
    intro st P hP k hk hPk
    rw [List.foldl_cons] at hP ⊢
    have hk₁ : k ∈ (innerStep s m st kw).1 := by
      apply innerStep_keep st kw k hk P _ hPk
      intro c' hc'
      obtain ⟨c'', hfin, hcc⟩ := foldl_prefix_mono l' _ c' hc'
      rw [hP] at hfin
      have hPe : P = c'' := by injection hfin
      rw [hPe]
      exact hcc
    exact ih _ P hP k hk₁ hPk

/-- Every candidate that carries the final prefix ends up in the group: the
source filters the pool by membership in the final group, so keywords
sharing the final prefix are never left behind. -/
theorem foldl_join {s : Kw} {m : Nat} :
    ∀ (l : List Kw), s ∉ l → ∀ st, InnerInv s m st →
      ∀ P, (l.foldl (innerStep s m) st).2 = some P →
      ∀ u ∈ l, P <+: u → u ∈ (l.foldl (innerStep s m) st).1 := by
  intro l
  induction l with
  | nil => intro _ st _ P _ u hu; simp at hu
  | cons kw l' ih =>
    intro hs st hinv P hP u hu hPu
    rw [List.foldl_cons] at hP ⊢
    have hkws : kw ≠ s := fun h => hs (by simp [h])
    have hs' : s ∉ l' := fun h => hs (by simp [h])
    have hinv₁ : InnerInv s m (innerStep s m st kw) := innerStep_inv hkws hinv
    have hfinv : InnerInv s m (l'.foldl (innerStep s m) (innerStep s m st kw)) :=
      foldl_innerStep_inv l' hs' _ hinv₁
    obtain ⟨hmP, hPs, _, _, _⟩ := innerInv_some hfinv hP
    rcases List.mem_cons.mp hu with hukw | hul'
    · have hPkw : P <+: kw := by rw [← hukw]; exact hPu
      rw [hukw]
      obtain ⟨group, c?⟩ := st
      cases c? with
      | none =>
        by_cases hc : m ≤ (commonPrefixOf s kw).length
        · have hk₁ : kw ∈ (innerStep s m (group, Option.none) kw).1 := by
            rw [innerStep, if_pos hc]
            exact List.mem_append.mpr (Or.inr (by simp))
          exact foldl_stable l' _ P hP kw hk₁ hPkw
        · exfalso
          have hPc : P <+: commonPrefixOf s kw := prefix_commonPrefixOf P s kw hPs hPkw
          have := hPc.length_le
          omega
      | some cur =>
        by_cases heq : commonPrefixOf s kw = cur
        · have hk₁ : kw ∈ (innerStep s m (group, some cur) kw).1 := by
            rw [innerStep, if_pos heq]
            exact List.mem_append.mpr (Or.inr (by simp))
          exact foldl_stable l' _ P hP kw hk₁ hPkw
        · by_cases hext : cur.isPrefixOf (commonPrefixOf s kw)
          · have hk₁ : kw ∈ (innerStep s m (group, some cur) kw).1 := by
              rw [innerStep, if_neg heq, if_pos hext]
              rw [List.mem_filter]
              exact ⟨List.mem_append.mpr (Or.inr (by simp)),
                List.isPrefixOf_iff_prefix.mpr (commonPrefixOf_prefix_right s kw)⟩
            exact foldl_stable l' _ P hP kw hk₁ hPkw
          · exfalso
            have hstep : innerStep s m (group, some cur) kw = (group, some cur) := by
              rw [innerStep, if_neg heq, if_neg hext]
            rw [hstep] at hP
            obtain ⟨c', hfin, hcurc'⟩ := foldl_prefix_mono l' (group, some cur) cur rfl
            rw [hP] at hfin
            have hPc' : P = c' := by injection hfin
            have hcurP : cur <+: P := by rw [hPc']; exact hcurc'
            have hPc : P <+: commonPrefixOf s kw := prefix_commonPrefixOf P s kw hPs hPkw
            exact hext (List.isPrefixOf_iff_prefix.mpr (hcurP.trans hPc))
    · exact ih hs' _ hinv₁ P hP u hul' hPu

/-- One step preserves freedom from duplicates of the group (for a fresh
candidate). -/
theorem innerStep_nodup {s : Kw} {m : Nat} (st : List Kw × Option Kw) (kw : Kw)
    (h : st.1.Nodup) (hfresh : kw ∉ st.1) : (innerStep s m st kw).1.Nodup := by
  have happ : (st.1 ++ [kw]).Nodup := by
    rw [List.nodup_append]
    exact ⟨h, List.nodup_singleton kw, by simpa using hfresh⟩
  obtain ⟨group, c?⟩ := st
  cases c? with
  | none =>
    rw [innerStep]
    by_cases hc : m ≤ (commonPrefixOf s kw).length
    · rw [if_pos hc]; exact happ
    · rw [if_neg hc]; exact h
  | some cur =>
    rw [innerStep]
    by_cases heq : commonPrefixOf s kw = cur
    · rw [if_pos heq]; exact happ
    · rw [if_neg heq]
      by_cases hext : cur.isPrefixOf (commonPrefixOf s kw)
      · rw [if_pos hext]; exact happ.filter _
      · rw [if_neg hext]; exact h

/-- The inner fold preserves freedom from duplicates of the group. -/
theorem foldl_nodup {s : Kw} {m : Nat} :
    ∀ (l : List Kw), l.Nodup → ∀ st : List Kw × Option Kw, st.1.Nodup →
      (∀ k ∈ st.1, k ∉ l) → (l.foldl (innerStep s m) st).1.Nodup := by
  intro l
  induction l with
  | nil => intro _ st h _; exact h
  | cons kw l' ih =>
    intro hl st h hfresh
    rw [List.foldl_cons]
    rw [List.nodup_cons] at hl
    apply ih hl.2
    · exact innerStep_nodup st kw h (fun hin => hfresh kw hin (by simp))
    · intro k hk
      rcases innerStep_members st kw k hk with h' | h'
      · exact fun hmem => hfresh k h' (by simp [hmem])
      · rw [h']; exact hl.1

/-- The group of a fold that never bound a prefix is the reference alone. -/
theorem innerInv_none {s : Kw} {m : Nat} {st : List Kw × Option Kw}
    (h : InnerInv s m st) (hn : st.2 = Option.none) : st.1 = [s] := by
  obtain ⟨g, c?⟩ := st
  cases c? with
  | none => exact h
  | some c => simp at hn

/-- Invariant of the outer `while` loop of `split_by_common_prefixes`: every
already-emitted group is keyed by a prefix of its members; size-one groups
are keyed by their single member; the emitted keys are distinct; no key is
still in the pool; and no pool keyword extends a key of minimum length (such
keywords were consumed by the key's own iteration). -/
def AccInv (m : Nat) (acc : List (Kw × List Kw)) (pool : List Kw) : Prop :=
  (∀ pg ∈ acc, ∀ k ∈ pg.2, pg.1 <+: k) ∧
  (∀ pg ∈ acc, pg.2.length = 1 → pg.2 = [pg.1]) ∧
  (acc.map Prod.fst).Nodup ∧
  (∀ pg ∈ acc, pg.1 ∉ pool) ∧
  (∀ pg ∈ acc, m ≤ pg.1.length → ∀ u ∈ pool, ¬ pg.1 <+: u)

/-- Python dict assignment of a fresh key appends. -/
theorem dictAssign_fresh (acc : List (Kw × List Kw)) (k : Kw) (v : List Kw)
    (h : ∀ pg ∈ acc, pg.1 ≠ k) : dictAssign acc k v = acc ++ [(k, v)] := by
  rw [dictAssign, if_neg]
  intro hc
  rw [List.any_eq_true] at hc
  obtain ⟨pg, hpg, he⟩ := hc
  exact h pg hpg (of_decide_eq_true he)

/-- The outer loop on an empty pool returns the accumulator. -/
theorem splitGo_nil (m fuel : Nat) (acc : List (Kw × List Kw)) :
    splitGo m fuel [] acc = acc := by
  cases fuel <;> rfl

/-- One outer-loop iteration, with the let bindings expanded. -/
theorem splitGo_cons (m fuel : Nat) (selected : Kw) (rest : List Kw)
    (acc : List (Kw × List Kw)) :
    splitGo m (fuel + 1) (selected :: rest) acc =
      splitGo m fuel
        (rest.filter (fun kw =>
          !((rest.foldl (innerStep selected m) ([selected], Option.none)).1.contains kw)))
        (dictAssign acc
          ((rest.foldl (innerStep selected m) ([selected], Option.none)).2.getD selected)
          (rest.foldl (innerStep selected m) ([selected], Option.none)).1) := rfl

/-- Main lemma for the outer loop: with enough fuel, a duplicate-free pool
and a valid accumulator, the final group lists are a permutation of the
accumulated members plus the pool, every group is keyed by a prefix of its
members, and every size-one group is keyed by its single member. -/
theorem splitGo_spec (m : Nat) :
    ∀ (fuel : Nat) (pool : List Kw) (acc : List (Kw × List Kw)),
      pool.length ≤ fuel → pool.Nodup → AccInv m acc pool →
      ((splitGo m fuel pool acc).flatMap Prod.snd).Perm (acc.flatMap Prod.snd ++ pool) ∧
      (∀ pg ∈ splitGo m fuel pool acc,
        (∀ k ∈ pg.2, pg.1 <+: k) ∧ (pg.2.length = 1 → pg.2 = [pg.1])) := by
  intro fuel
  induction fuel with
  | zero =>
    intro pool acc hlen hnd hinv
    cases pool with
    | nil =>
      rw [splitGo_nil]
      exact ⟨by simp, fun pg hpg => ⟨hinv.1 pg hpg, hinv.2.1 pg hpg⟩⟩
    | cons a t => simp at hlen
  | succ fuel ih =>
    intro pool acc hlen hnd hinv
    cases pool with
    | nil =>
      rw [splitGo_nil]
      exact ⟨by simp, fun pg hpg => ⟨hinv.1 pg hpg, hinv.2.1 pg hpg⟩⟩
    | cons selected rest =>
      rw [splitGo_cons]
      rw [List.nodup_cons] at hnd
      obtain ⟨hsr, hrest⟩ := hnd
      have inv₀ : InnerInv selected m ([selected], Option.none) := rfl
      set st := rest.foldl (innerStep selected m) ([selected], Option.none) with hst
      set G := st.1 with hG
      set key := st.2.getD selected with hkey
      set newPool := rest.filter (fun kw => !(G.contains kw)) with hnp
      have hstinv : InnerInv selected m st := foldl_innerStep_inv rest hsr _ inv₀
      have hG_nodup : G.Nodup := by
        rw [hG, hst]
        exact foldl_nodup rest hrest _ (List.nodup_singleton selected)
          (by intro k hk; rw [List.mem_singleton.mp hk]; exact hsr)
      have hG_mem : ∀ k ∈ G, k = selected ∨ k ∈ rest := by
        intro k hk
        rcases foldl_members rest _ k hk with h | h
        · exact Or.inl (List.mem_singleton.mp h)
        · exact Or.inr h
      have hs_in_G : selected ∈ G := by
        cases hsnd : st.2 with
        | none => rw [hG, innerInv_none hstinv hsnd]; simp
        | some c => exact (innerInv_some hstinv hsnd).2.2.2.1
      have hkey_none : st.2 = Option.none → key = selected := by
        intro h; rw [hkey, h]; rfl
      have hkey_some : ∀ c, st.2 = some c → key = c := by
        intro c h; rw [hkey, h]; rfl
      have hkey_mem : ∀ k ∈ G, key <+: k := by
        intro k hk
        cases hsnd : st.2 with
        | none =>
          rw [hG, innerInv_none hstinv hsnd] at hk
          rw [List.mem_singleton.mp hk, hkey_none hsnd]
        | some c =>
          rw [hkey_some c hsnd]
          exact (innerInv_some hstinv hsnd).2.2.1 k hk
      have hkey_singleton : G.length = 1 → G = [key] := by
        intro hlen1
        cases hsnd : st.2 with
        | none =>
          rw [hG, innerInv_none hstinv hsnd, hkey_none hsnd]
        | some c =>
          have := (innerInv_some hstinv hsnd).2.2.2.2
          rw [← hG] at this
          omega
      have hjoin : ∀ c, st.2 = some c → ∀ u ∈ rest, c <+: u → u ∈ G := by
        intro c hsnd u hu hcu
        rw [hG, hst]
        exact foldl_join rest hsr _ inv₀ c (by rw [← hst]; exact hsnd) u hu hcu
      have hkey_fresh : ∀ pg ∈ acc, pg.1 ≠ key := by
        intro pg hpg heq
        cases hsnd : st.2 with
        | none =>
          apply hinv.2.2.2.1 pg hpg
          rw [heq, hkey_none hsnd]
          simp
        | some c =>
          obtain ⟨hm, hcs, _, _, _⟩ := innerInv_some hstinv hsnd
          have hklen : m ≤ pg.1.length := by
            rw [heq, hkey_some c hsnd]; exact hm
          apply hinv.2.2.2.2 pg hpg hklen selected (by simp)
          rw [heq, hkey_some c hsnd]
          exact hcs
      rw [dictAssign_fresh acc key G hkey_fresh]
      have hnp_sub : ∀ x ∈ newPool, x ∈ rest := by
        intro x hx
        rw [hnp] at hx
        exact (List.mem_filter.mp hx).1
      have hnp_not_G : ∀ x ∈ newPool, x ∉ G := by
        intro x hx
        rw [hnp, List.mem_filter] at hx
        intro hxg
        have := hx.2
        rw [Bool.not_eq_true', ← Bool.not_eq_true] at this
        exact this (List.elem_eq_true_of_mem hxg)
      have hnp_nodup : newPool.Nodup := hrest.filter _
      have hnp_len : newPool.length ≤ fuel := by
        have h1 : newPool.length ≤ rest.length := List.length_filter_le _ _
        simp at hlen
        omega
      have hnewinv : AccInv m (acc ++ [(key, G)]) newPool := by
        refine ⟨?_, ?_, ?_, ?_, ?_⟩
        · intro pg hpg
          rcases List.mem_append.mp hpg with h | h
          · exact hinv.1 pg h
          · rw [List.mem_singleton.mp h]
            exact hkey_mem
        · intro pg hpg
          rcases List.mem_append.mp hpg with h | h
          · exact hinv.2.1 pg h
          · rw [List.mem_singleton.mp h]
            exact hkey_singleton
        · rw [List.map_append, List.nodup_append]
          refine ⟨hinv.2.2.1, by simp, ?_⟩
          intro a ha hb
          simp only [List.map_cons, List.map_nil, List.mem_singleton] at hb
          rcases List.mem_map.mp ha with ⟨pg, hpg, hfst⟩
          exact hkey_fresh pg hpg (by rw [hfst, hb])
        · intro pg hpg
          rcases List.mem_append.mp hpg with h | h
          · intro hmem
            exact hinv.2.2.2.1 pg h (by simp [hnp_sub pg.1 hmem])
          · rw [List.mem_singleton.mp h]
            intro hmem
            cases hsnd : st.2 with
            | none =>
              rw [hkey_none hsnd] at hmem
              exact hsr (hnp_sub selected hmem)
            | some c =>
              rw [hkey_some c hsnd] at hmem
              exact hnp_not_G c hmem
                (hjoin c hsnd c (hnp_sub c hmem) List.prefix_rfl)
        · intro pg hpg
          rcases List.mem_append.mp hpg with h | h
          · intro hm u hu
            exact hinv.2.2.2.2 pg h hm u (by simp [hnp_sub u hu])
          · rw [List.mem_singleton.mp h]
            intro hm u hu hpref
            cases hsnd : st.2 with
            | none =>
              rw [hkey_none hsnd] at hpref hm
              have hm' : m ≤ selected.length := hm
              obtain ⟨_, _, hshort⟩ := foldl_none rest _ hsnd
              have hcp : commonPrefixOf selected u = selected :=
                commonPrefixOf_eq_left selected u hpref
              have := hshort u (hnp_sub u hu)
              rw [hcp] at this
              omega
            | some c =>
              rw [hkey_some c hsnd] at hpref
              exact hnp_not_G u hu (hjoin c hsnd u (hnp_sub u hu) hpref)
      obtain ⟨hperm', hprops⟩ := ih newPool (acc ++ [(key, G)]) hnp_len hnp_nodup hnewinv
      refine ⟨?_, hprops⟩
      have hGperm : (G ++ newPool).Perm (selected :: rest) := by
        have hrhs_nodup : (selected :: rest.filter (fun kw => G.contains kw)).Nodup := by
          rw [List.nodup_cons]
          refine ⟨fun hmem => hsr ((List.mem_filter.mp hmem).1), hrest.filter _⟩
        have hGperm₁ : G.Perm (selected :: rest.filter (fun kw => G.contains kw)) := by
          rw [List.perm_ext_iff_of_nodup hG_nodup hrhs_nodup]
          intro x
          constructor
          · intro hx
            rcases hG_mem x hx with h | h
            · rw [h]; simp
            · exact List.mem_cons.mpr (Or.inr (List.mem_filter.mpr
                ⟨h, List.elem_eq_true_of_mem hx⟩))
          · intro hx
            rcases List.mem_cons.mp hx with h | h
            · rw [h]; exact hs_in_G
            · exact List.mem_of_elem_eq_true (List.mem_filter.mp h).2
        refine List.Perm.trans (hGperm₁.append_right newPool) ?_
        refine List.Perm.cons selected ?_
        rw [hnp]
        exact List.filter_append_perm _ rest
      refine List.Perm.trans hperm' ?_
      have hre : (acc ++ [(key, G)]).flatMap Prod.snd ++ newPool =
          acc.flatMap Prod.snd ++ (G ++ newPool) := by simp
      rw [hre]
      exact hGperm.append_left _

/-- C10: for every list of pairwise-distinct keywords and every minimum
prefix length, the groups returned by `split_by_common_prefixes` partition
the input: the concatenation of all member lists is a permutation of the
input (so every keyword appears in exactly one group, and never twice),
every member of a group starts with that group's prefix key, and a
singleton group's key is the keyword itself. -/
theorem split_by_common_prefixes_partition (keywords : List Kw) (minLen : Nat)
    (hnd : keywords.Nodup) :
    ((split_by_common_prefixes keywords minLen).flatMap Prod.snd).Perm keywords ∧
    (∀ pg ∈ split_by_common_prefixes keywords minLen,
      ∀ k ∈ pg.2, pg.1.isPrefixOf k = true) ∧
    (∀ pg ∈ split_by_common_prefixes keywords minLen,
      pg.2.length = 1 → pg.2 = [pg.1]) := by
  have hinv : AccInv minLen [] keywords :=
    ⟨by simp, by simp, by simp, by simp, by simp⟩
  obtain ⟨hperm, hprops⟩ :=
    splitGo_spec minLen keywords.length keywords [] le_rfl hnd hinv
  rw [split_by_common_prefixes]
  refine ⟨by simpa using hperm, ?_, fun pg hpg => (hprops pg hpg).2⟩
  intro pg hpg k hk
  exact List.isPrefixOf_iff_prefix.mpr ((hprops pg hpg).1 k hk)

/-- C10 witness: the partition property evaluated on a concrete
duplicate-free keyword list. -/
theorem split_by_common_prefixes_partition_witness :
    (["fooBarBaz".toList, "fooBarTest".toList, "fooBar".toList] : List Kw).Nodup ∧
    (((split_by_common_prefixes
        ["fooBarBaz".toList, "fooBarTest".toList, "fooBar".toList] 3).flatMap
          Prod.snd).Perm ["fooBarBaz".toList, "fooBarTest".toList, "fooBar".toList] ∧
      (∀ pg ∈ split_by_common_prefixes
          ["fooBarBaz".toList, "fooBarTest".toList, "fooBar".toList] 3,
        ∀ k ∈ pg.2, pg.1.isPrefixOf k = true) ∧
      (∀ pg ∈ split_by_common_prefixes
          ["fooBarBaz".toList, "fooBarTest".toList, "fooBar".toList] 3,
        pg.2.length = 1 → pg.2 = [pg.1])) :=
  ⟨by decide, split_by_common_prefixes_partition _ 3 (by decide)⟩

end Yml2Block
